import Mathlib

/-!
Formal model of the b-plus-tree visualizer: the tree builder `Tree.load`
from `tree.py` and the layout engine `TreeVisualizer.analyze_tree` from
`draw.py`, embedded shallowly.  Machine integers of the source are Python
arbitrary-precision integers, modelled by `Nat`; the pixel coordinates are
Python floats produced by `+`, `*` and one division, modelled exactly by `ℚ`.
-/

namespace BPTreeVis

/-- Nodes as built by `tree.py`.  `name` is the value of the enumeration
counter `enumi` used in `settings['node-name'].format(self.enumi)`; the
format string only embeds this counter, so names are identified with it.
`data_arr` is the node's key array.  `parent` is the index of the parent
inside the level that was `self.nodes[-1]` when this node was created
(Python `None` becomes `none`).  The source's `children` list is recovered
from these indices: a node only ever gains children while the single level
after it is processed, and `Node.__init__` appends the child to
`parent.children` at creation, so a node's children are exactly the nodes
of the next processed level whose `parent` points at it, in creation order
(see `childrenOf`). -/
structure Node (α : Type) where
  name : Nat
  data_arr : List α
  parent : Option Nat
  deriving DecidableEq

/-- Fullness test `Node.is_full` from `tree.py`:
`len(self.children) >= len(self.data_arr) + 1`, phrased on the key count
and the current child count. -/
def isFull (keyCount childCount : Nat) : Bool :=
  decide (keyCount + 1 ≤ childCount)

/-- Bounded run of the builder's scan
`while i < len(self.nodes[-1]) and self.nodes[-1][i].is_full(): i += 1`.
`keys` lists the key counts of the previous level, `counts` its current
child counts, and `fuel` bounds the iterations; the loop advances at most
`keys.length - i` times, which is the fuel `advanceCursor` supplies. -/
def advanceCursorAux (keys counts : List Nat) : Nat → Nat → Nat
  | 0, i => i
  | fuel + 1, i =>
    if i < keys.length then
      if isFull (keys.getD i 0) (counts.getD i 0) then
        advanceCursorAux keys counts fuel (i + 1)
      else i
    else i

/-- The builder's cursor advance: the `while` loop of `Tree.load`. -/
def advanceCursor (keys counts : List Nat) (i : Nat) : Nat :=
  advanceCursorAux keys counts (keys.length - i) i

/-- One iteration of the outer `for level in tree_array` loop of
`Tree.load`, processing the key arrays of one input level: for each key
array the cursor advances over full nodes of the previous level, the node
at the cursor (if any) becomes the parent and its child count grows by one
(`parent._add_child` in `Node.__init__`), and the new node is named by the
running counter `e` (`enumi`).  Returns the created level together with
the final counter. -/
def processLevel (keys : List Nat) : List Nat → Nat → Nat → List (List α) →
    List (Node α) × Nat
  | _, _, e, [] => ([], e)
  | counts, i, e, d :: rest =>
    let r := advanceCursor keys counts i
    if r < keys.length then
      let res := processLevel keys (counts.set r (counts.getD r 0 + 1)) r (e + 1) rest
      (⟨e, d, some r⟩ :: res.1, res.2)
    else
      let res := processLevel keys counts r (e + 1) rest
      (⟨e, d, none⟩ :: res.1, res.2)

/-- Key counts of a level, the data `is_full` reads on the previous level. -/
def keyCounts (level : List (Node α)) : List Nat :=
  level.map (fun n => n.data_arr.length)

/-- The outer loop of `Tree.load`.  The child counts passed to
`processLevel` start at zero because a node only ever gains children while
the level directly after it is processed, and `self.nodes[-1]` is always
the most recently appended level, whose nodes were created with empty
`children`.  After a level is processed, an empty `self.nodes[-1]` is
popped before the new level is appended. -/
def loadLoop : List (List (Node α)) → Nat → List (List (List α)) →
    List (List (Node α)) × Nat
  | nodes, e, [] => (nodes, e)
  | nodes, e, level :: rest =>
    let prev := (nodes.getLast?).getD []
    let res := processLevel (keyCounts prev) (List.replicate prev.length 0) 0 e level
    let nodes' := if prev.length = 0 then nodes.dropLast else nodes
    loadLoop (nodes' ++ [res.1]) res.2 rest

/-- `Tree.load` with `append=False` (the flow the program uses): the level
list starts as the placeholder `[[]]` and the counter at `0`; after the
loop, a final empty last level is popped.  `self.nodes` is provably never
empty when the source reads `self.nodes[-1]`, so the total `getLast?`
access with default `[]` agrees with the source's indexing. -/
def load (tree_array : List (List (List α))) : List (List (Node α)) × Nat :=
  let res := loadLoop [[]] 0 tree_array
  (if ((res.1.getLast?).getD []).length = 0 then res.1.dropLast else res.1, res.2)

/-- `Tree.nlevels`. -/
def nlevels (t : List (List (Node α))) : Nat := t.length

/-- `Tree.nnodes`. -/
def nnodes (t : List (List (Node α))) : Nat := (t.map List.length).sum

/-- `Tree.nleaves`: `0 if len(self.nodes) == 0 else len(self.nodes[-1])`. -/
def nleaves (t : List (List (Node α))) : Nat := ((t.getLast?).getD []).length

/-- Total number of key arrays of an input, which is how often `enumi` is
incremented by `load`. -/
def totalCount (tree_array : List (List (List α))) : Nat :=
  (tree_array.map List.length).sum

/-- All node names of a tree, level by level. -/
def allNames : List (List (Node α)) → List Nat
  | [] => []
  | lvl :: rest => lvl.map (fun n => n.name) ++ allNames rest

/-- Children of the node at index `p` of a level, read off the next level:
the source's `children` list of that node, in creation order. -/
def childrenOf (nextLevel : List (Node α)) (p : Nat) : List (Node α) :=
  nextLevel.filter (fun n => n.parent == some p)

/-- The `Vec2` class of `draw.py`, with exact rational coordinates in place
of Python floats. -/
structure Vec2 where
  x : ℚ
  y : ℚ
  deriving DecidableEq

instance : Add Vec2 := ⟨fun a b => ⟨a.x + b.x, a.y + b.y⟩⟩

instance : Mul Vec2 := ⟨fun a b => ⟨a.x * b.x, a.y * b.y⟩⟩

instance : HMul Vec2 ℚ Vec2 := ⟨fun a c => ⟨a.x * c, a.y * c⟩⟩

instance : HMul ℚ Vec2 Vec2 := ⟨fun c a => ⟨c * a.x, c * a.y⟩⟩

/-- The geometry attributes `TreeVisualizer.__init__` computes from the
configuration: `self.node_size`, `self.margin`, `self.separation`.  The
`load_settings` module is not part of the sources, so the configuration
values are parameters here; in the source `node_size` is
`(block-width * d, block-height * 3)`, `margin` has both components equal
to the `margin` setting, and `separation` is
`(horizontal-separation, vertical-separation)`. -/
structure VisParams where
  node_size : Vec2
  margin : Vec2
  separation : Vec2

/-- Assignment `d[k] = v` on a Python dict, modelled as an association
list in insertion order: an existing key is updated in place, a new key is
appended. -/
def dictSet (d : List (Nat × Vec2)) (k : Nat) (v : Vec2) : List (Nat × Vec2) :=
  if d.any (fun kv => kv.1 == k) then
    d.map (fun kv => if kv.1 == k then (k, v) else kv)
  else d ++ [(k, v)]

/-- Lookup `d[k]` on the dict model; `none` is Python's `KeyError`. -/
def dictGet (d : List (Nat × Vec2)) (k : Nat) : Option Vec2 :=
  (d.find? (fun kv => kv.1 == k)).map (fun kv => kv.2)

/-- The keys of the dict model, in insertion order. -/
def dictKeys (d : List (Nat × Vec2)) : List Nat := d.map (fun kv => kv.1)

/-- The leaf dict comprehension of `analyze_tree`:
`{leaf.name: margin + (node_size + separation) * Vec2(i, j) for (i, leaf)
in enumerate(self.tree.nodes[-1])}`, as sequential insertions. -/
def leafPositionsAux (P : VisParams) (j : ℚ) :
    List (Node α) → Nat → List (Nat × Vec2) → List (Nat × Vec2)
  | [], _, d => d
  | n :: rest, i, d =>
    leafPositionsAux P j rest (i + 1)
      (dictSet d n.name (P.margin + (P.node_size + P.separation) * (⟨(i : ℚ), j⟩ : Vec2)))

/-- Positions of the leaves, see `leafPositionsAux`. -/
def leafPositions (P : VisParams) (leaves : List (Node α)) (j : ℚ) :
    List (Nat × Vec2) :=
  leafPositionsAux P j leaves 0 []

/-- The sum `sum([self.positions[child.name].x for child in node.children])`;
a missing position is Python's `KeyError`, hence `none`. -/
def sumChildX (d : List (Nat × Vec2)) : List (Node α) → Option ℚ
  | [] => some 0
  | c :: rest =>
    match dictGet d c.name, sumChildX d rest with
    | some v, some s => some (v.x + s)
    | _, _ => none

/-- The inner `for node in level` loop of `analyze_tree`: `p` is the index
of the node in its level (which is also the index its children's `parent`
refers to), `posx`/`posy` the mutable `pos`, `d` the positions dict.  A
childless node moves `pos.x` one node-plus-separation step to the right;
otherwise `pos.x` becomes the mean of the children's recorded x
coordinates.  The node's position is then stored (`pos.clone()`). -/
def layoutNodes (P : VisParams) (nextLevel : List (Node α)) :
    List (Node α) → Nat → ℚ → ℚ → List (Nat × Vec2) →
    Option (List (Nat × Vec2))
  | [], _, _, _, d => some d
  | n :: rest, p, posx, posy, d =>
    let ch := childrenOf nextLevel p
    if ch.length = 0 then
      let px := posx + (P.node_size.x + P.separation.x)
      layoutNodes P nextLevel rest (p + 1) px posy (dictSet d n.name ⟨px, posy⟩)
    else
      match sumChildX d ch with
      | none => none
      | some s =>
        let px := s / (ch.length : ℚ)
        layoutNodes P nextLevel rest (p + 1) px posy (dictSet d n.name ⟨px, posy⟩)

/-- The outer `for level in reversed(self.tree.nodes[:-1])` loop of
`analyze_tree`.  Each entry pairs a level with the level after it (where
its nodes' children live); `j` is decremented before each level and `pos`
restarts at `margin + (node_size.y + separation.y) * Vec2(0, j)`, so
`pos.x` restarts at `margin.x`. -/
def layoutLevels (P : VisParams) :
    List (List (Node α) × List (Node α)) → ℚ → List (Nat × Vec2) →
    Option (List (Nat × Vec2))
  | [], _, d => some d
  | lp :: rest, j, d =>
    match layoutNodes P lp.2 lp.1 0 P.margin.x
        (P.margin.y + (P.node_size.y + P.separation.y) * j) d with
    | none => none
    | some d' => layoutLevels P rest (j - 1) d'

/-- The dimensions computed by `analyze_tree`:
`margin * 2 + node_size * count + separation * (count + Vec2(-1, -1))`
with `count = Vec2(nleaves, nlevels)`.  In the source this value is
assigned to `self.dimensions` before any position is computed, for every
tree, including the empty one. -/
def tree_dimensions (P : VisParams) (t : List (List (Node α))) : Vec2 :=
  P.margin * (2 : ℚ) + P.node_size * (⟨(nleaves t : ℚ), (nlevels t : ℚ)⟩ : Vec2)
    + P.separation * ((⟨(nleaves t : ℚ), (nlevels t : ℚ)⟩ : Vec2) + ⟨-1, -1⟩)

/-- `TreeVisualizer.analyze_tree`.  On an empty tree the source raises an
`IndexError` at `self.tree.nodes[-1]` in the leaf comprehension, modelled
by `none`; a `KeyError` while summing child positions is also `none`.
Otherwise the computed dimensions and the complete positions dict are
returned. -/
def analyze_tree (P : VisParams) (t : List (List (Node α))) :
    Option (Vec2 × List (Nat × Vec2)) :=
  match t.getLast? with
  | none => none
  | some leaves =>
    let d0 := leafPositions P leaves ((t.length : ℚ) - 1)
    let pairs := (t.dropLast.zip t.tail).reverse
    match layoutLevels P pairs ((t.length : ℚ) - 2) d0 with
    | none => none
    | some d => some (tree_dimensions P t, d)

/-- Reference list of leaf x coordinates: the `i`-th leaf sits at
`margin.x + (node_size.x + separation.x) * i`. -/
def leafXs (P : VisParams) (leaves : List (Node α)) : List ℚ :=
  (List.range leaves.length).map
    (fun i : Nat => P.margin.x + (P.node_size.x + P.separation.x) * (i : ℚ))

/-- The x coordinates of the children of node `p`, read from a list `nxs`
of x coordinates of the next level, positionally. -/
def childXs (nextLevel : List (Node α)) (nxs : List ℚ) (p : Nat) : List ℚ :=
  (nextLevel.zip nxs).filterMap
    (fun cx => if cx.1.parent == some p then some cx.2 else none)

/-- Reference x coordinates of one internal level, mirroring the
`layoutNodes` recursion but purely on numbers. -/
def xsOfLevel (P : VisParams) (nextLevel : List (Node α)) (nxs : List ℚ) :
    List (Node α) → Nat → ℚ → List ℚ
  | [], _, _ => []
  | _ :: rest, p, posx =>
    let cxs := childXs nextLevel nxs p
    let px := if cxs.length = 0 then posx + (P.node_size.x + P.separation.x)
              else cxs.sum / (cxs.length : ℚ)
    px :: xsOfLevel P nextLevel nxs rest (p + 1) px

/-- Reference x coordinates of every level of a tree, bottom-up: the last
level is `leafXs`, every other level is computed from the level after it. -/
def xsAll (P : VisParams) : List (List (Node α)) → List (List ℚ)
  | [] => []
  | [a] => [leafXs P a]
  | a :: b :: rest =>
    let rxs := xsAll P (b :: rest)
    xsOfLevel P b (rxs.getD 0 []) a 0 P.margin.x :: rxs

/-- Child counts of the previous level after a prefix of a level's nodes
has been created: each created node with `parent = some p` has bumped
entry `p` by one. -/
def countsAt (counts0 : List Nat) (parents : List (Option Nat)) : List Nat :=
  parents.foldl
    (fun cs op => match op with
      | some p => cs.set p (cs.getD p 0 + 1)
      | none => cs)
    counts0

/-- Index `p` points at the leftmost node of the previous level that is
not yet full: it is in range, not full, and everything to its left is
full. -/
def leftmostNotFullAt (keys counts : List Nat) (p : Nat) : Prop :=
  p < keys.length ∧ isFull (keys.getD p 0) (counts.getD p 0) = false ∧
    ∀ q, q < p → isFull (keys.getD q 0) (counts.getD q 0) = true

/-- Order on optional parent indices: whenever both are assigned, the
first is not to the right of the second. -/
def optLe (a b : Option Nat) : Prop :=
  ∀ p q, a = some p → b = some q → p ≤ q

/-- Between two adjacent levels `A` and `B` of a built tree: every node of
`B` with an assigned parent points into `A` and occurs in that parent's
children sequence (see `childrenOf`) at exactly one index. -/
def levelChildrenOk [DecidableEq α] (A B : List (Node α)) : Prop :=
  ∀ n ∈ B, ∀ p, n.parent = some p →
    p < A.length ∧ (childrenOf B p).count n = 1

/-- Concrete geometry used by the witnesses: node size `(40, 30)`, margin
`(10, 10)`, separation `(20, 20)`. -/
def sampleParams : VisParams := ⟨⟨40, 30⟩, ⟨10, 10⟩, ⟨20, 20⟩⟩

/-- The two-level, two-leaf tree built by `load` from `[[[1]],[[2],[3]]]`. -/
def sampleTree : List (List (Node Nat)) := (load [[[1]], [[2], [3]]]).1

/-- The position mapping `analyze_tree` computes for `sampleTree` with
`sampleParams`: leaves at x 10 and 70 on the baseline y 60, the root
centered at x 40 on row y 10. -/
def sampleDict : List (Nat × Vec2) := [(1, ⟨10, 60⟩), (2, ⟨70, 60⟩), (0, ⟨40, 10⟩)]

/-- Canvas dimensions as the specification words them:
`2 × margin + nodeSize × (leafCount, levelCount) +
separation × (leafCount − 1, levelCount − 1)`, componentwise. -/
def dims_spec (P : VisParams) (leafCount levelCount : Nat) : Vec2 :=
  ⟨2 * P.margin.x + P.node_size.x * (leafCount : ℚ)
      + P.separation.x * ((leafCount : ℚ) - 1),
   2 * P.margin.y + P.node_size.y * (levelCount : ℚ)
      + P.separation.y * ((levelCount : ℚ) - 1)⟩

/-! Component lemmas for the `Vec2` arithmetic. -/

@[simp] theorem Vec2_mk_x (a b : ℚ) : (Vec2.mk a b).x = a := rfl

@[simp] theorem Vec2_mk_y (a b : ℚ) : (Vec2.mk a b).y = b := rfl

@[simp] theorem Vec2_add_def (a b : Vec2) : a + b = ⟨a.x + b.x, a.y + b.y⟩ := rfl

@[simp] theorem Vec2_mul_def (a b : Vec2) : a * b = ⟨a.x * b.x, a.y * b.y⟩ := rfl

@[simp] theorem Vec2_mul_rat_def (a : Vec2) (c : ℚ) : a * c = ⟨a.x * c, a.y * c⟩ := rfl

@[simp] theorem rat_mul_Vec2_def (c : ℚ) (a : Vec2) : c * a = ⟨c * a.x, c * a.y⟩ := rfl

/-! Facts about the builder's cursor advance. -/

theorem advanceCursorAux_le (keys counts : List Nat) :
    ∀ fuel i, i ≤ advanceCursorAux keys counts fuel i := by
  intro fuel
  induction fuel with
  | zero => intro i; exact Nat.le_refl i
  | succ f ih =>
    intro i
    simp only [advanceCursorAux]
    split
    · split
      · exact Nat.le_trans (Nat.le_succ i) (ih (i + 1))
      · exact Nat.le_refl i
    · exact Nat.le_refl i

theorem advanceCursorAux_le_length (keys counts : List Nat) :
    ∀ fuel i, i ≤ keys.length →
      advanceCursorAux keys counts fuel i ≤ keys.length := by
  intro fuel
  induction fuel with
  | zero => intro i hi; exact hi
  | succ f ih =>
    intro i hi
    simp only [advanceCursorAux]
    split
    · split
      · exact ih (i + 1) (by omega)
      · exact hi
    · exact hi

theorem advanceCursorAux_full_below (keys counts : List Nat) :
    ∀ fuel i q, i ≤ q → q < advanceCursorAux keys counts fuel i →
      isFull (keys.getD q 0) (counts.getD q 0) = true := by
  intro fuel
  induction fuel with
  | zero =>
    intro i q hiq hq
    exact absurd (Nat.lt_of_le_of_lt hiq hq) (Nat.lt_irrefl i)
  | succ f ih =>
    intro i q hiq hq
    simp only [advanceCursorAux] at hq
    by_cases hlen : i < keys.length
    · simp only [hlen, if_true] at hq
      by_cases hful : isFull (keys.getD i 0) (counts.getD i 0) = true
      · simp only [hful, if_true] at hq
        rcases Nat.eq_or_lt_of_le hiq with h | h
        · exact h ▸ hful
        · exact ih (i + 1) q h hq
      · simp only [hful, if_false] at hq
        exact absurd (Nat.lt_of_le_of_lt hiq hq) (Nat.lt_irrefl i)
    · simp only [hlen, if_false] at hq
      exact absurd (Nat.lt_of_le_of_lt hiq hq) (Nat.lt_irrefl i)

theorem advanceCursorAux_not_full (keys counts : List Nat) :
    ∀ fuel i, keys.length - i ≤ fuel →
      advanceCursorAux keys counts fuel i < keys.length →
      isFull (keys.getD (advanceCursorAux keys counts fuel i) 0)
        (counts.getD (advanceCursorAux keys counts fuel i) 0) = false := by
  intro fuel
  induction fuel with
  | zero =>
    intro i hfu hlt
    simp only [advanceCursorAux] at hlt ⊢
    omega
  | succ f ih =>
    intro i hfu hlt
    simp only [advanceCursorAux] at hlt ⊢
    by_cases hlen : i < keys.length
    · simp only [hlen, if_true] at hlt ⊢
      by_cases hful : isFull (keys.getD i 0) (counts.getD i 0) = true
      · simp only [hful, if_true] at hlt ⊢
        exact ih (i + 1) (by omega) hlt
      · simp only [hful, if_false]
        exact Bool.not_eq_true _ ▸ (Bool.eq_false_iff.mpr hful)
    · simp only [hlen, if_false] at hlt

theorem advanceCursor_le (keys counts : List Nat) (i : Nat) :
    i ≤ advanceCursor keys counts i :=
  advanceCursorAux_le keys counts _ i

theorem advanceCursor_le_length (keys counts : List Nat) (i : Nat)
    (hi : i ≤ keys.length) : advanceCursor keys counts i ≤ keys.length :=
  advanceCursorAux_le_length keys counts _ i hi

theorem advanceCursor_full_below (keys counts : List Nat) (i q : Nat)
    (hiq : i ≤ q) (hq : q < advanceCursor keys counts i) :
    isFull (keys.getD q 0) (counts.getD q 0) = true :=
  advanceCursorAux_full_below keys counts _ i q hiq hq

theorem advanceCursor_not_full (keys counts : List Nat) (i : Nat)
    (hlt : advanceCursor keys counts i < keys.length) :
    isFull (keys.getD (advanceCursor keys counts i) 0)
      (counts.getD (advanceCursor keys counts i) 0) = false :=
  advanceCursorAux_not_full keys counts _ i (Nat.le_refl _) hlt

/-! Facts about `processLevel`. -/

theorem getD_set_ne (l : List Nat) (r q v : Nat) (h : q ≠ r) :
    (l.set r v).getD q 0 = l.getD q 0 := by
  induction l generalizing r q with
  | nil => simp
  | cons a as ih =>
    cases r with
    | zero =>
      cases q with
      | zero => exact absurd rfl h
      | succ q' => simp [List.set]
    | succ r' =>
      cases q with
      | zero => simp [List.set]
      | succ q' => simpa [List.set] using ih r' q' (by omega)

theorem processLevel_length (keys : List Nat) :
    ∀ (lvl : List (List α)) (counts : List Nat) (i e : Nat),
      ((processLevel keys counts i e lvl).1).length = lvl.length := by
  intro lvl
  induction lvl with
  | nil => intro counts i e; rfl
  | cons d rest ih =>
    intro counts i e
    simp only [processLevel]
    split
    · simpa using ih _ _ _
    · simpa using ih _ _ _

theorem processLevel_snd (keys : List Nat) :
    ∀ (lvl : List (List α)) (counts : List Nat) (i e : Nat),
      (processLevel keys counts i e lvl).2 = e + lvl.length := by
  intro lvl
  induction lvl with
  | nil => intro counts i e; simp [processLevel]
  | cons d rest ih =>
    intro counts i e
    simp only [processLevel]
    split
    · simp only [ih, List.length_cons]; omega
    · simp only [ih, List.length_cons]; omega

theorem processLevel_names (keys : List Nat) :
    ∀ (lvl : List (List α)) (counts : List Nat) (i e : Nat),
      ((processLevel keys counts i e lvl).1).map (fun n => n.name)
        = List.range' e lvl.length := by
  intro lvl
  induction lvl with
  | nil => intro counts i e; rfl
  | cons d rest ih =>
    intro counts i e
    simp only [processLevel, List.range']
    split
    · simpa using ih _ _ _
    · simpa using ih _ _ _

theorem processLevel_name_range (keys : List Nat) (lvl : List (List α))
    (counts : List Nat) (i e : Nat) (n : Node α)
    (hn : n ∈ (processLevel keys counts i e lvl).1) :
    e ≤ n.name ∧ n.name < e + lvl.length := by
  have hmem : n.name ∈ ((processLevel keys counts i e lvl).1).map
      (fun n => n.name) := List.mem_map_of_mem _ hn
  rw [processLevel_names] at hmem
  have := List.mem_range'_1.mp hmem
  omega

theorem processLevel_names_nodup (keys : List Nat) (lvl : List (List α))
    (counts : List Nat) (i e : Nat) :
    (((processLevel keys counts i e lvl).1).map (fun n => n.name)).Nodup := by
  rw [processLevel_names]
  exact List.nodup_range' _ _

theorem processLevel_parent_bounds (keys : List Nat) :
    ∀ (lvl : List (List α)) (counts : List Nat) (i e : Nat) (n : Node α),
      n ∈ (processLevel keys counts i e lvl).1 →
      ∀ p, n.parent = some p → i ≤ p ∧ p < keys.length := by
  intro lvl
  induction lvl with
  | nil => intro counts i e n hn; simp [processLevel] at hn
  | cons d rest ih =>
    intro counts i e n hn p hp
    simp only [processLevel] at hn
    by_cases hr : advanceCursor keys counts i < keys.length
    · simp only [hr, if_true, List.mem_cons] at hn
      rcases hn with hn | hn
      · subst hn
        simp only at hp
        cases hp
        exact ⟨advanceCursor_le keys counts i, hr⟩
      · have := ih _ _ _ n hn p hp
        exact ⟨Nat.le_trans (advanceCursor_le keys counts i) this.1, this.2⟩
    · simp only [hr, if_false, List.mem_cons] at hn
      rcases hn with hn | hn
      · subst hn; simp at hp
      · have := ih _ _ _ n hn p hp
        exact ⟨Nat.le_trans (advanceCursor_le keys counts i) this.1, this.2⟩

theorem processLevel_parent_none (lvl : List (List α)) (counts : List Nat)
    (i e : Nat) (n : Node α) (hn : n ∈ (processLevel ([] : List Nat) counts i e lvl).1) :
    n.parent = none := by
  cases hp : n.parent with
  | none => rfl
  | some p =>
    have := (processLevel_parent_bounds [] lvl counts i e n hn p hp).2
    simp at this

theorem processLevel_pairwise (keys : List Nat) :
    ∀ (lvl : List (List α)) (counts : List Nat) (i e : Nat),
      List.Pairwise optLe
        (((processLevel keys counts i e lvl).1).map (fun n => n.parent)) := by
  intro lvl
  induction lvl with
  | nil => intro counts i e; simp [processLevel]
  | cons d rest ih =>
    intro counts i e
    simp only [processLevel]
    by_cases hr : advanceCursor keys counts i < keys.length
    · simp only [hr, if_true, List.map_cons]
      refine List.Pairwise.cons ?_ (ih _ _ _)
      intro b hb p q hp hq
      cases hp
      rcases List.mem_map.mp hb with ⟨m, hm, hmb⟩
      have := processLevel_parent_bounds keys rest _ _ _ m hm q (hmb ▸ hq)
      exact this.1
    · simp only [hr, if_false, List.map_cons]
      refine List.Pairwise.cons ?_ (ih _ _ _)
      intro b hb p q hp hq
      cases hp

theorem countsAt_nil (counts : List Nat) : countsAt counts [] = counts := rfl

theorem countsAt_cons (counts : List Nat) (op : Option Nat) (l : List (Option Nat)) :
    countsAt counts (op :: l)
      = countsAt (match op with
          | some p => counts.set p (counts.getD p 0 + 1)
          | none => counts) l := rfl

theorem isFull_mono (k c : Nat) (h : isFull k c = true) : isFull k (c + 1) = true := by
  simp only [isFull, decide_eq_true_eq] at h ⊢
  omega

theorem processLevel_leftmost (keys : List Nat) :
    ∀ (lvl : List (List α)) (counts : List Nat) (i e : Nat),
      counts.length = keys.length → i ≤ keys.length →
      (∀ q, q < i → isFull (keys.getD q 0) (counts.getD q 0) = true) →
      ∀ k p,
        ((((processLevel keys counts i e lvl).1).map (fun n => n.parent)).getD k none)
          = some p →
        leftmostNotFullAt keys
          (countsAt counts
            ((((processLevel keys counts i e lvl).1).map (fun n => n.parent)).take k))
          p := by
  intro lvl
  induction lvl with
  | nil => intro counts i e _ _ _ k p hk; simp [processLevel] at hk
  | cons d rest ih =>
    intro counts i e hlen hile hbelow k p hk
    simp only [processLevel] at hk ⊢
    by_cases hr : advanceCursor keys counts i < keys.length
    · simp only [hr, if_true, List.map_cons] at hk ⊢
      cases k with
      | zero =>
        simp only [List.getD_cons_zero] at hk
        cases hk
        simp only [List.take_zero, countsAt_nil]
        refine ⟨hr, advanceCursor_not_full keys counts i hr, ?_⟩
        intro q hq
        by_cases hqi : q < i
        · exact hbelow q hqi
        · exact advanceCursor_full_below keys counts i q (by omega) hq
      | succ k' =>
        simp only [List.getD_cons_succ] at hk
        simp only [List.take_succ_cons, countsAt_cons]
        refine ih _ _ _ ?_ ?_ ?_ k' p hk
        · simp [hlen]
        · omega
        · intro q hq
          rw [getD_set_ne _ _ _ _ (by omega)]
          by_cases hqi : q < i
          · exact hbelow q hqi
          · exact advanceCursor_full_below keys counts i q (by omega) hq
    · simp only [hr, if_false, List.map_cons] at hk ⊢
      cases k with
      | zero => simp at hk
      | succ k' =>
        simp only [List.getD_cons_succ] at hk
        simp only [List.take_succ_cons, countsAt_cons]
        have hrle : advanceCursor keys counts i ≤ keys.length :=
          advanceCursor_le_length keys counts i hile
        refine ih _ _ _ hlen hrle ?_ k' p hk
        intro q hq
        by_cases hqi : q < i
        · exact hbelow q hqi
        · exact advanceCursor_full_below keys counts i q (by omega) hq

/-- C1: in every level `Tree.load` builds, processed against the previous
level `prev` exactly as in the source (`processLevel` with the previous
level's key counts, all child counts zero, cursor `0`), every node whose
parent is assigned gets the leftmost not-yet-full node of the previous
level at the moment of its creation (`countsAt` gives the child counts
just before that node is created), and the assigned parent indices are
monotone along the level: a later node never attaches left of an earlier
sibling's parent. -/
theorem load_parent_leftmost_and_monotone (prev : List (Node α))
    (lvl : List (List α)) (e : Nat) :
    (∀ k p,
      ((((processLevel (keyCounts prev) (List.replicate prev.length 0) 0 e lvl).1).map
          (fun n => n.parent)).getD k none) = some p →
      leftmostNotFullAt (keyCounts prev)
        (countsAt (List.replicate prev.length 0)
          ((((processLevel (keyCounts prev) (List.replicate prev.length 0) 0 e lvl).1).map
              (fun n => n.parent)).take k)) p)
    ∧ List.Pairwise optLe
        (((processLevel (keyCounts prev) (List.replicate prev.length 0) 0 e lvl).1).map
          (fun n => n.parent)) := by
  constructor
  · intro k p hk
    refine processLevel_leftmost _ _ _ _ _ ?_ ?_ ?_ k p hk
    · simp [keyCounts]
    · exact Nat.zero_le _
    · intro q hq; omega
  · exact processLevel_pairwise _ _ _ _ _

/-- Witness for `load_parent_leftmost_and_monotone`: previous level with
key counts `[1, 1]`; the third created node of the new level attaches to
index `1`, which is then the leftmost not-yet-full node (index `0` already
has two children). -/
theorem load_parent_leftmost_and_monotone_witness :
    leftmostNotFullAt [1, 1] (countsAt [0, 0] [some 0, some 0]) 1 := by
  have h := (load_parent_leftmost_and_monotone
      ([⟨0, [1], none⟩, ⟨1, [2], none⟩] : List (Node Nat)) [[5], [6], [7]] 2).1 2 1 rfl
  simpa [keyCounts] using h

/-- Counterexample to C3 as stated: on the input
`[[[1],[2]],[[3],[4],[5],[6],[7]]]` the built tree has two nodes in level
0 (the claim says at most one), and the fifth node of level 1 has no
parent (the claim says every node outside level 0 has exactly one). -/
theorem root_level_and_parenthood_counterexample :
    ¬ ((((load ([[[1], [2]], [[3], [4], [5], [6], [7]]] :
          List (List (List Nat)))).1.getD 0 []).length ≤ 1))
    ∧ ∃ lvl ∈ (load ([[[1], [2]], [[3], [4], [5], [6], [7]]] :
          List (List (List Nat)))).1.drop 1, ∃ n ∈ lvl, n.parent = none := by
  constructor
  · decide
  · decide

/-! Facts about `loadLoop` and `load`. -/

theorem loadLoop_ne_nil :
    ∀ (tA : List (List (List α))) (nodes : List (List (Node α))) (e : Nat),
      nodes ≠ [] → (loadLoop nodes e tA).1 ≠ [] := by
  intro tA
  induction tA with
  | nil => intro nodes e h; exact h
  | cons lvl rest ih =>
    intro nodes e h
    simp only [loadLoop]
    exact ih _ _ (by simp)

theorem loadLoop_dropLast_ne_nil :
    ∀ (tA : List (List (List α))) (nodes : List (List (Node α))) (e : Nat),
      nodes ≠ [] → (∀ l ∈ nodes.dropLast, l ≠ []) →
      ∀ l ∈ ((loadLoop nodes e tA).1).dropLast, l ≠ [] := by
  intro tA
  induction tA with
  | nil => intro nodes e _ h; exact h
  | cons lvl rest ih =>
    intro nodes e hne h
    simp only [loadLoop]
    refine ih _ _ (by simp) ?_
    rw [List.dropLast_concat]
    by_cases hp : (((nodes.getLast?).getD []).length = 0)
    · simp only [hp, if_true]
      exact h
    · simp only [hp, if_false]
      intro l hl
      have hsplit := List.dropLast_append_getLast hne
      rw [← hsplit] at hl
      rcases List.mem_append.mp hl with hin | hin
      · exact h l hin
      · have hl' : l = nodes.getLast hne := by simpa using hin
        subst hl'
        intro habs
        rw [List.getLast?_eq_getLast nodes hne] at hp
        simp [habs] at hp

/-- C8: no tree built by `load` contains an empty level: an empty previous
level is popped before the next level is appended, and a final empty last
level is popped after the loop. -/
theorem no_empty_levels (tA : List (List (List α))) (lvl : List (Node α))
    (hmem : lvl ∈ (load tA).1) : lvl ≠ [] := by
  unfold load at hmem
  simp only at hmem
  have hne : (loadLoop ([[]] : List (List (Node α))) 0 tA).1 ≠ [] :=
    loadLoop_ne_nil tA [[]] 0 (by simp)
  have hdrop : ∀ l ∈ ((loadLoop ([[]] : List (List (Node α))) 0 tA).1).dropLast, l ≠ [] :=
    loadLoop_dropLast_ne_nil tA [[]] 0 (by simp) (by simp)
  by_cases hlast :
      ((((loadLoop ([[]] : List (List (Node α))) 0 tA).1.getLast?).getD []).length = 0)
  · simp only [hlast, if_true] at hmem
    exact hdrop lvl hmem
  · simp only [hlast, if_false] at hmem
    have hsplit := List.dropLast_append_getLast hne
    rw [← hsplit] at hmem
    rcases List.mem_append.mp hmem with hin | hin
    · exact hdrop lvl hin
    · have hl' : lvl = (loadLoop ([[]] : List (List (Node α))) 0 tA).1.getLast hne := by
        simpa using hin
      subst hl'
      intro habs
      rw [List.getLast?_eq_getLast _ hne] at hlast
      simp [habs] at hlast

/-- Witness for `no_empty_levels` at the input `[[[1]]]`. -/
theorem no_empty_levels_witness :
    ([⟨0, [1], none⟩] : List (Node Nat)) ≠ [] :=
  no_empty_levels [[[1]]] [⟨0, [1], none⟩] (by decide)

theorem loadLoop_append :
    ∀ (xs ys : List (List (List α))) (nodes : List (List (Node α))) (e : Nat),
      loadLoop nodes e (xs ++ ys)
        = loadLoop (loadLoop nodes e xs).1 (loadLoop nodes e xs).2 ys := by
  intro xs
  induction xs with
  | nil => intro ys nodes e; rfl
  | cons lvl rest ih =>
    intro ys nodes e
    simp only [List.cons_append, loadLoop]
    exact ih _ _ _

theorem loadLoop_snd :
    ∀ (tA : List (List (List α))) (nodes : List (List (Node α))) (e : Nat),
      (loadLoop nodes e tA).2 = e + totalCount tA := by
  intro tA
  induction tA with
  | nil => intro nodes e; simp [loadLoop, totalCount]
  | cons lvl rest ih =>
    intro nodes e
    simp only [loadLoop, totalCount, List.map_cons, List.sum_cons]
    rw [ih, processLevel_snd]
    simp only [totalCount]
    omega

theorem loadLoop_empty_step (nodes : List (List (Node α))) (e : Nat)
    (lvl : List (List α)) (rest : List (List (List α))) :
    loadLoop nodes e ([] :: lvl :: rest)
      = loadLoop
          ((if ((nodes.getLast?).getD []).length = 0 then nodes.dropLast else nodes)
            ++ [(processLevel ([] : List Nat) [] 0 e lvl).1])
          ((processLevel ([] : List Nat) [] 0 e lvl).2) rest := by
  simp only [loadLoop, processLevel, List.getLast?_concat, Option.getD_some,
    List.length_nil, if_true, List.dropLast_concat, keyCounts, List.map_nil,
    List.length_replicate, List.replicate]

theorem loadLoop_mem :
    ∀ (tA : List (List (List α))) (nodes : List (List (Node α))) (e : Nat)
      (lvl : List (Node α)) (n : Node α),
      lvl ∈ (loadLoop nodes e tA).1 → n ∈ lvl →
      (∃ l0 ∈ nodes, n ∈ l0) ∨ (e ≤ n.name ∧ n.name < e + totalCount tA) := by
  intro tA
  induction tA with
  | nil =>
    intro nodes e lvl n hmem hn
    exact Or.inl ⟨lvl, hmem, hn⟩
  | cons lvl0 rest ih =>
    intro nodes e lvl n hmem hn
    simp only [loadLoop] at hmem
    rcases ih _ _ _ _ hmem hn with ⟨l0, hl0, hnl0⟩ | ⟨h1, h2⟩
    · rcases List.mem_append.mp hl0 with hin | hin
      · left
        by_cases hp : (((nodes.getLast?).getD []).length = 0)
        · simp only [hp, if_true] at hin
          exact ⟨l0, (List.dropLast_sublist _).subset hin, hnl0⟩
        · simp only [hp, if_false] at hin
          exact ⟨l0, hin, hnl0⟩
      · right
        have hl0' : l0 = (processLevel (keyCounts ((nodes.getLast?).getD []))
            (List.replicate ((nodes.getLast?).getD []).length 0) 0 e lvl0).1 := by
          simpa using hin
        subst hl0'
        have := processLevel_name_range _ _ _ _ _ _ hnl0
        simp only [totalCount, List.map_cons, List.sum_cons]
        have : totalCount rest = (rest.map List.length).sum := rfl
        omega
    · right
      rw [processLevel_snd] at h1 h2
      simp only [totalCount, List.map_cons, List.sum_cons]
      have : totalCount rest = (rest.map List.length).sum := rfl
      omega

theorem processLevel_nodup (keys : List Nat) (lvl : List (List α))
    (counts : List Nat) (i e : Nat) :
    ((processLevel keys counts i e lvl).1).Nodup :=
  (processLevel_names_nodup keys lvl counts i e).of_map

theorem processLevel_children_once [DecidableEq α] (keys : List Nat)
    (lvl : List (List α)) (counts : List Nat) (i e : Nat) (n : Node α)
    (hn : n ∈ (processLevel keys counts i e lvl).1) (p : Nat)
    (hp : n.parent = some p) :
    (childrenOf (processLevel keys counts i e lvl).1 p).count n = 1 := by
  have hmem : n ∈ childrenOf (processLevel keys counts i e lvl).1 p :=
    List.mem_filter.mpr ⟨hn, by simp [hp]⟩
  exact List.count_eq_one_of_mem ((processLevel_nodup keys lvl counts i e).filter _) hmem

theorem chain_dropLast {β : Type} (R : β → β → Prop) (l : List β)
    (h : List.Chain' R l) : List.Chain' R l.dropLast := by
  rw [List.dropLast_eq_take]
  exact List.Chain'.take h _

theorem loadLoop_chain [DecidableEq α] :
    ∀ (tA : List (List (List α))) (nodes : List (List (Node α))) (e : Nat),
      nodes ≠ [] → List.Chain' levelChildrenOk nodes →
      List.Chain' levelChildrenOk (loadLoop nodes e tA).1 := by
  intro tA
  induction tA with
  | nil => intro nodes e _ h; exact h
  | cons lvl rest ih =>
    intro nodes e hne hchain
    simp only [loadLoop]
    refine ih _ _ (by simp) ?_
    rw [List.chain'_append]
    by_cases hp : (((nodes.getLast?).getD []).length = 0)
    · simp only [hp, if_true]
      refine ⟨chain_dropLast _ _ hchain, List.chain'_singleton _, ?_⟩
      intro x _ y hy
      simp only [List.head?_cons, Option.mem_def, Option.some.injEq] at hy
      subst hy
      intro n hn p hpar
      have hprev : ((nodes.getLast?).getD []) = ([] : List (Node α)) :=
        List.length_eq_zero.mp hp
      rw [hprev] at hn
      have : n.parent = none :=
        processLevel_parent_none lvl (List.replicate 0 0) 0 e n
          (by simpa [keyCounts] using hn)
      rw [this] at hpar
      cases hpar
    · simp only [hp, if_false]
      refine ⟨hchain, List.chain'_singleton _, ?_⟩
      intro x hx y hy
      simp only [List.head?_cons, Option.mem_def, Option.some.injEq] at hy
      subst hy
      have hxval : x = (nodes.getLast?).getD [] := by
        rw [List.getLast?_eq_getLast nodes hne] at hx ⊢
        simpa using hx.symm
      subst hxval
      intro n hn p hpar
      constructor
      · have := (processLevel_parent_bounds _ _ _ _ _ n hn p hpar).2
        simpa [keyCounts] using this
      · exact processLevel_children_once _ _ _ _ _ n hn p hpar

/-- Amended C3: level 0 may contain several nodes and a node outside level
0 may lack a parent (see the counterexample); what does hold for every
tree built by `load` is that each node carries at most one parent
reference (`parent` is a single optional index) and that every node whose
parent is assigned points into the immediately preceding level and occurs
in that parent's children sequence at exactly one index. -/
theorem parent_children_exactly_once [DecidableEq α]
    (tA : List (List (List α))) :
    List.Chain' levelChildrenOk (load tA).1 := by
  unfold load
  simp only
  have hchain : List.Chain' levelChildrenOk (loadLoop ([[]] : List (List (Node α))) 0 tA).1 :=
    loadLoop_chain tA [[]] 0 (by simp) (by simp)
  by_cases hlast :
      ((((loadLoop ([[]] : List (List (Node α))) 0 tA).1.getLast?).getD []).length = 0)
  · simp only [hlast, if_true]
    exact chain_dropLast _ _ hchain
  · simp only [hlast, if_false]
    exact hchain

/-- C10: when a non-first input level is empty, the builder appends the
empty level and the next input level's parent scan runs over it — never
over the last non-empty level — so every node created for that next level
(identified by its `enumi` name range) has a null parent. -/
theorem empty_level_null_parents (tA1 : List (List (List α)))
    (lvl : List (List α)) (tA2 : List (List (List α))) (_h1 : tA1 ≠ [])
    (lvl' : List (Node α)) (n : Node α)
    (hmem : lvl' ∈ (load (tA1 ++ [] :: lvl :: tA2)).1) (hn : n ∈ lvl')
    (hlo : totalCount tA1 ≤ n.name)
    (hhi : n.name < totalCount tA1 + lvl.length) :
    n.parent = none := by
  unfold load at hmem
  simp only [loadLoop_append] at hmem
  have he1 : (loadLoop ([[]] : List (List (Node α))) 0 tA1).2 = totalCount tA1 := by
    rw [loadLoop_snd]; omega
  rw [he1] at hmem
  rw [loadLoop_empty_step] at hmem
  rw [processLevel_snd] at hmem
  have hmem' : lvl' ∈ (loadLoop
      ((if (((loadLoop ([[]] : List (List (Node α))) 0 tA1).1.getLast?).getD []).length = 0
          then (loadLoop ([[]] : List (List (Node α))) 0 tA1).1.dropLast
          else (loadLoop ([[]] : List (List (Node α))) 0 tA1).1)
        ++ [(processLevel ([] : List Nat) [] 0 (totalCount tA1) lvl).1])
      (totalCount tA1 + lvl.length) tA2).1 := by
    by_cases hfin : ((((loadLoop
        ((if (((loadLoop ([[]] : List (List (Node α))) 0 tA1).1.getLast?).getD []).length = 0
            then (loadLoop ([[]] : List (List (Node α))) 0 tA1).1.dropLast
            else (loadLoop ([[]] : List (List (Node α))) 0 tA1).1)
          ++ [(processLevel ([] : List Nat) [] 0 (totalCount tA1) lvl).1])
        (totalCount tA1 + lvl.length) tA2).1.getLast?).getD []).length = 0)
    · simp only [hfin, if_true] at hmem
      exact (List.dropLast_sublist _).subset hmem
    · simp only [hfin, if_false] at hmem
      exact hmem
  rcases loadLoop_mem tA2 _ _ lvl' n hmem' hn with ⟨l0, hl0, hnl0⟩ | ⟨hge, _⟩
  · rcases List.mem_append.mp hl0 with hin | hin
    · have hl0' : l0 ∈ (loadLoop ([[]] : List (List (Node α))) 0 tA1).1 := by
        by_cases hc :
            ((((loadLoop ([[]] : List (List (Node α))) 0 tA1).1.getLast?).getD []).length = 0)
        · simp only [hc, if_true] at hin
          exact (List.dropLast_sublist _).subset hin
        · simp only [hc, if_false] at hin
          exact hin
      rcases loadLoop_mem tA1 _ _ l0 n hl0' hnl0 with ⟨l1, hl1, hnl1⟩ | ⟨_, hlt⟩
      · have : l1 = ([] : List (Node α)) := by simpa using hl1
        subst this
        cases hnl1
      · omega
    · have hl0' : l0 = (processLevel ([] : List Nat) [] 0 (totalCount tA1) lvl).1 := by
        simpa using hin
      subst hl0'
      exact processLevel_parent_none lvl [] 0 (totalCount tA1) n hnl0
  · omega

/-- Witness for `empty_level_null_parents` at the input `[[[1]], [], [[2]]]`:
the node created for the level after the empty one has a null parent even
though the root is not full. -/
theorem empty_level_null_parents_witness :
    (⟨1, [2], none⟩ : Node Nat).parent = none :=
  empty_level_null_parents [[[1]]] [[2]] [] (by decide) [⟨1, [2], none⟩]
    ⟨1, [2], none⟩ (by decide) (by decide) (by decide) (by decide)

/-- Counterexample to C2 as stated: `load []` does produce the empty tree,
but `analyze_tree` on it is an error — the source indexes
`self.tree.nodes[-1]` on an empty list, an `IndexError` (`none` here) —
rather than producing zero-sized dimensions and an empty mapping. -/
theorem empty_layout_counterexample :
    (load ([] : List (List (List Nat)))).1 = []
    ∧ analyze_tree ⟨⟨40, 30⟩, ⟨10, 10⟩, ⟨20, 20⟩⟩
        ((load ([] : List (List (List Nat)))).1) = none :=
  ⟨rfl, rfl⟩

/-- Amended C2: for the empty input, `load` produces a tree with
`nlevels() == 0` and `nleaves() == 0`, but `analyze_tree` on that empty
tree raises an `IndexError` at `self.tree.nodes[-1]` (modelled by `none`)
instead of returning dimensions and an empty position mapping. -/
theorem empty_input_load_and_layout (P : VisParams) :
    nlevels ((load ([] : List (List (List α)))).1) = 0
    ∧ nleaves ((load ([] : List (List (List α)))).1) = 0
    ∧ analyze_tree P ((load ([] : List (List (List α)))).1) = none :=
  ⟨rfl, rfl, rfl⟩

/-- C6: the canvas dimensions, computed for every tree (the source assigns
`self.dimensions` before any position work), match the specification
formula `2×margin + nodeSize×(leafCount, levelCount) +
separation×(leafCount−1, levelCount−1)`; whenever `analyze_tree` returns,
the returned dimensions equal that formula; and doubling the leaf count at
fixed level count adds `leafCount × (nodeWidth + horizontalSeparation)` to
the width and leaves the height unchanged. -/
theorem canvas_dimensions_formula (P : VisParams) (t : List (List (Node α))) :
    tree_dimensions P t = dims_spec P (nleaves t) (nlevels t)
    ∧ (∀ dims d, analyze_tree P t = some (dims, d) →
        dims = dims_spec P (nleaves t) (nlevels t))
    ∧ (∀ L V : Nat,
        (dims_spec P (2 * L) V).x - (dims_spec P L V).x
          = (L : ℚ) * (P.node_size.x + P.separation.x)
        ∧ (dims_spec P (2 * L) V).y = (dims_spec P L V).y) := by
  have hbase : tree_dimensions P t = dims_spec P (nleaves t) (nlevels t) := by
    simp only [tree_dimensions, dims_spec, Vec2_mul_rat_def, Vec2_mul_def,
      Vec2_add_def, Vec2_mk_x, Vec2_mk_y, Vec2.mk.injEq]
    constructor <;> ring
  refine ⟨hbase, ?_, ?_⟩
  · intro dims d h
    unfold analyze_tree at h
    cases hl : t.getLast? with
    | none => rw [hl] at h; cases h
    | some leaves =>
      rw [hl] at h
      simp only at h
      cases hlay : layoutLevels P ((t.dropLast.zip t.tail).reverse)
          ((t.length : ℚ) - 2) (leafPositions P leaves ((t.length : ℚ) - 1)) with
      | none => rw [hlay] at h; cases h
      | some d' =>
        rw [hlay] at h
        have := (Option.some.injEq _ _).mp h
        cases this
        exact hbase
  · intro L V
    constructor
    · simp only [dims_spec, Vec2_mk_x]
      push_cast
      ring
    · simp only [dims_spec, Vec2_mk_y]

/-- Witness for `canvas_dimensions_formula`: the two-level, two-leaf tree
built from `[[[1]],[[2],[3]]]` with node size `(40,30)`, margin `10` and
separation `(20,20)` gets canvas dimensions `(120, 100)`. -/
theorem canvas_dimensions_formula_witness :
    (⟨120, 100⟩ : Vec2) = dims_spec ⟨⟨40, 30⟩, ⟨10, 10⟩, ⟨20, 20⟩⟩ 2 2 := by
  have h := (canvas_dimensions_formula ⟨⟨40, 30⟩, ⟨10, 10⟩, ⟨20, 20⟩⟩
      ((load ([[[1]], [[2], [3]]] : List (List (List Nat)))).1)).2.1
      ⟨120, 100⟩ [(1, ⟨10, 60⟩), (2, ⟨70, 60⟩), (0, ⟨40, 10⟩)]
      (by norm_num [analyze_tree, load, loadLoop, processLevel, advanceCursor,
        advanceCursorAux, keyCounts, isFull, leafPositions, leafPositionsAux,
        layoutLevels, layoutNodes, childrenOf, sumChildX, dictSet, dictGet,
        tree_dimensions, nleaves, nlevels])
  exact h

/-! Facts about the dict model. -/

theorem dictGet_cons (kv : Nat × Vec2) (rest : List (Nat × Vec2)) (k : Nat) :
    dictGet (kv :: rest) k = if kv.1 = k then some kv.2 else dictGet rest k := by
  by_cases h : kv.1 = k
  · rw [if_pos h]
    simp [dictGet, List.find?_cons_of_pos, h]
  · rw [if_neg h]
    simp only [dictGet]
    rw [List.find?_cons_of_neg _ (by simpa using h)]

theorem dictKeys_cons (kv : Nat × Vec2) (rest : List (Nat × Vec2)) :
    dictKeys (kv :: rest) = kv.1 :: dictKeys rest := rfl

theorem dictGet_map_update_self (d : List (Nat × Vec2)) (k : Nat) (v : Vec2)
    (h : d.any (fun kv => kv.1 == k) = true) :
    dictGet (d.map (fun kv => if kv.1 == k then (k, v) else kv)) k = some v := by
  induction d with
  | nil => simp at h
  | cons kv rest ih =>
    by_cases hk : kv.1 = k
    · rw [List.map_cons, if_pos (by simpa using hk), dictGet_cons, if_pos rfl]
    · rw [List.map_cons, if_neg (by simpa using hk), dictGet_cons, if_neg hk]
      refine ih ?_
      simp only [List.any_cons, Bool.or_eq_true, beq_iff_eq] at h
      rcases h with h | h
      · exact absurd h hk
      · simpa using h

theorem dictGet_append_new_self (d : List (Nat × Vec2)) (k : Nat) (v : Vec2)
    (h : d.any (fun kv => kv.1 == k) = false) :
    dictGet (d ++ [(k, v)]) k = some v := by
  induction d with
  | nil => rw [List.nil_append, dictGet_cons, if_pos rfl]
  | cons kv rest ih =>
    simp only [List.any_cons, Bool.or_eq_false_iff, beq_eq_false_iff_ne, ne_eq] at h
    rw [List.cons_append, dictGet_cons, if_neg h.1]
    exact ih (by simpa using h.2)

theorem dictGet_dictSet_self (d : List (Nat × Vec2)) (k : Nat) (v : Vec2) :
    dictGet (dictSet d k v) k = some v := by
  unfold dictSet
  by_cases h : d.any (fun kv => kv.1 == k)
  · rw [if_pos h]
    exact dictGet_map_update_self d k v h
  · rw [if_neg h]
    exact dictGet_append_new_self d k v (Bool.eq_false_iff.mpr h)

theorem dictGet_map_update_ne (d : List (Nat × Vec2)) (k k' : Nat) (v : Vec2)
    (h : k' ≠ k) :
    dictGet (d.map (fun kv => if kv.1 == k then (k, v) else kv)) k'
      = dictGet d k' := by
  induction d with
  | nil => rfl
  | cons kv rest ih =>
    by_cases hk : kv.1 = k
    · rw [List.map_cons, if_pos (by simpa using hk), dictGet_cons, dictGet_cons,
        if_neg (show ¬ ((k, v).1 = k') from fun hh => h hh.symm),
        if_neg (show ¬ (kv.1 = k') from fun hh => h (by rw [← hh, hk]))]
      exact ih
    · rw [List.map_cons, if_neg (by simpa using hk), dictGet_cons, dictGet_cons]
      by_cases hkv : kv.1 = k'
      · rw [if_pos hkv, if_pos hkv]
      · rw [if_neg hkv, if_neg hkv]
        exact ih

theorem dictGet_append_new_ne (d : List (Nat × Vec2)) (k k' : Nat) (v : Vec2)
    (h : k' ≠ k) : dictGet (d ++ [(k, v)]) k' = dictGet d k' := by
  induction d with
  | nil =>
    rw [List.nil_append, dictGet_cons,
      if_neg (show ¬ ((k, v).1 = k') from fun hh => h hh.symm)]
  | cons kv rest ih =>
    rw [List.cons_append, dictGet_cons, dictGet_cons]
    by_cases hkv : kv.1 = k'
    · rw [if_pos hkv, if_pos hkv]
    · rw [if_neg hkv, if_neg hkv]
      exact ih

theorem dictGet_dictSet_ne (d : List (Nat × Vec2)) (k k' : Nat) (v : Vec2)
    (h : k' ≠ k) : dictGet (dictSet d k v) k' = dictGet d k' := by
  unfold dictSet
  by_cases ha : d.any (fun kv => kv.1 == k)
  · rw [if_pos ha]
    exact dictGet_map_update_ne d k k' v h
  · rw [if_neg ha]
    exact dictGet_append_new_ne d k k' v h

theorem mem_dictKeys_of_dictGet (d : List (Nat × Vec2)) (k : Nat) (v : Vec2)
    (h : dictGet d k = some v) : k ∈ dictKeys d := by
  induction d with
  | nil => cases h
  | cons kv rest ih =>
    rw [dictGet_cons] at h
    rw [dictKeys_cons]
    by_cases hk : kv.1 = k
    · exact hk ▸ List.mem_cons_self _ _
    · rw [if_neg hk] at h
      exact List.mem_cons_of_mem _ (ih h)

theorem any_eq_mem_dictKeys (d : List (Nat × Vec2)) (k : Nat) :
    d.any (fun kv => kv.1 == k) = true ↔ k ∈ dictKeys d := by
  simp only [List.any_eq_true, beq_iff_eq, dictKeys, List.mem_map]

theorem dictKeys_map_update (d : List (Nat × Vec2)) (k : Nat) (v : Vec2) :
    dictKeys (d.map (fun kv => if kv.1 == k then (k, v) else kv))
      = dictKeys d := by
  induction d with
  | nil => rfl
  | cons kv rest ih =>
    by_cases hk : kv.1 = k
    · rw [List.map_cons, if_pos (by simpa using hk), dictKeys_cons, dictKeys_cons, ih, hk]
    · rw [List.map_cons, if_neg (by simpa using hk), dictKeys_cons, dictKeys_cons, ih]

theorem dictKeys_dictSet (d : List (Nat × Vec2)) (k : Nat) (v : Vec2) :
    dictKeys (dictSet d k v)
      = if k ∈ dictKeys d then dictKeys d else dictKeys d ++ [k] := by
  unfold dictSet
  by_cases h : d.any (fun kv => kv.1 == k)
  · rw [if_pos h, if_pos ((any_eq_mem_dictKeys d k).mp h)]
    exact dictKeys_map_update d k v
  · rw [if_neg h, if_neg (fun hm => h ((any_eq_mem_dictKeys d k).mpr hm))]
    simp [dictKeys]

theorem dictKeys_dictSet_nodup (d : List (Nat × Vec2)) (k : Nat) (v : Vec2)
    (h : (dictKeys d).Nodup) : (dictKeys (dictSet d k v)).Nodup := by
  rw [dictKeys_dictSet]
  by_cases hm : k ∈ dictKeys d
  · simpa [hm] using h
  · simp only [hm, if_false]
    rw [List.nodup_append]
    exact ⟨h, List.nodup_singleton _, by simpa using hm⟩

/-! Bridging facts for indexed list access. -/

theorem getD_of_get? {β : Type} (l : List β) (k : Nat) (x d : β)
    (h : l.get? k = some x) : l.getD k d = x := by
  induction l generalizing k with
  | nil => cases h
  | cons a as ih =>
    cases k with
    | zero =>
      simp only [List.get?_cons_zero, Option.some.injEq] at h
      simp [List.getD_cons_zero, h]
    | succ k' =>
      simp only [List.get?_cons_succ] at h
      simpa [List.getD_cons_succ] using ih k' h

/-! Facts about the leaf dict of `analyze_tree`. -/

theorem leafPositionsAux_preserve (P : VisParams) (j : ℚ) :
    ∀ (leaves : List (Node α)) (i : Nat) (d : List (Nat × Vec2)) (k : Nat),
      k ∉ leaves.map (fun n => n.name) →
      dictGet (leafPositionsAux P j leaves i d) k = dictGet d k := by
  intro leaves
  induction leaves with
  | nil => intro i d k _; rfl
  | cons n rest ih =>
    intro i d k hk
    simp only [List.map_cons, List.mem_cons, not_or] at hk
    simp only [leafPositionsAux]
    rw [ih _ _ _ hk.2, dictGet_dictSet_ne _ _ _ _ hk.1]

theorem leafPositionsAux_get (P : VisParams) (j : ℚ) :
    ∀ (leaves : List (Node α)) (i : Nat) (d : List (Nat × Vec2)) (k : Nat) (n : Node α),
      (leaves.map (fun n => n.name)).Nodup →
      leaves.get? k = some n →
      dictGet (leafPositionsAux P j leaves i d) n.name
        = some (P.margin + (P.node_size + P.separation)
            * (⟨((i + k : Nat) : ℚ), j⟩ : Vec2)) := by
  intro leaves
  induction leaves with
  | nil => intro i d k n _ hk; cases hk
  | cons m rest ih =>
    intro i d k n hnd hk
    simp only [List.map_cons, List.nodup_cons] at hnd
    cases k with
    | zero =>
      simp only [List.get?_cons_zero, Option.some.injEq] at hk
      subst hk
      simp only [leafPositionsAux]
      rw [leafPositionsAux_preserve P j rest _ _ _ hnd.1, dictGet_dictSet_self]
      norm_num
    | succ k' =>
      simp only [List.get?_cons_succ] at hk
      simp only [leafPositionsAux]
      rw [ih (i + 1) _ k' n hnd.2 hk,
        show i + 1 + k' = i + (k' + 1) from by omega]

theorem leafPositionsAux_keys_nodup (P : VisParams) (j : ℚ) :
    ∀ (leaves : List (Node α)) (i : Nat) (d : List (Nat × Vec2)),
      (dictKeys d).Nodup →
      (dictKeys (leafPositionsAux P j leaves i d)).Nodup := by
  intro leaves
  induction leaves with
  | nil => intro i d h; exact h
  | cons n rest ih =>
    intro i d h
    simp only [leafPositionsAux]
    exact ih _ _ (dictKeys_dictSet_nodup _ _ _ h)

theorem leafXs_length (P : VisParams) (leaves : List (Node α)) :
    (leafXs P leaves).length = leaves.length := by
  rw [leafXs, List.length_map, List.length_range]

theorem leafXs_getD (P : VisParams) (leaves : List (Node α)) (k : Nat)
    (hk : k < leaves.length) :
    (leafXs P leaves).getD k 0
      = P.margin.x + (P.node_size.x + P.separation.x) * (k : ℚ) := by
  refine getD_of_get? _ _ _ _ ?_
  rw [leafXs, List.get?_eq_getElem?, List.getElem?_map, List.getElem?_range hk]
  rfl

/-! Facts about the reference x coordinates. -/

theorem sumChildX_eq (d : List (Nat × Vec2)) :
    ∀ (next : List (Node α)) (nxs : List ℚ), nxs.length = next.length →
      (∀ k c, next.get? k = some c →
        ∃ v, dictGet d c.name = some v ∧ v.x = nxs.getD k 0) →
      ∀ p, sumChildX d (childrenOf next p) = some ((childXs next nxs p).sum)
        ∧ (childrenOf next p).length = (childXs next nxs p).length := by
  intro next
  induction next with
  | nil =>
    intro nxs _ _ p
    constructor
    · simp [childrenOf, sumChildX, childXs]
    · simp [childrenOf, childXs]
  | cons c rest ih =>
    intro nxs hlen hlook p
    cases nxs with
    | nil => simp at hlen
    | cons x xrest =>
      have hlen' : xrest.length = rest.length := by simpa using hlen
      have hlookrest : ∀ k c', rest.get? k = some c' →
          ∃ v, dictGet d c'.name = some v ∧ v.x = xrest.getD k 0 := by
        intro k c' hkc
        simpa using hlook (k + 1) c' (by simpa using hkc)
      have hih := ih xrest hlen' hlookrest p
      rcases hlook 0 c (by simp) with ⟨v, hv, hvx⟩
      simp only [List.getD_cons_zero] at hvx
      by_cases hc : c.parent = some p
      · constructor
        · simp only [childrenOf, childXs, List.filter_cons, List.zip_cons_cons,
            List.filterMap_cons, hc, beq_self_eq_true, if_true]
          simp only [childrenOf, childXs] at hih
          simp only [sumChildX, hv, hih.1, List.sum_cons, hvx]
        · simp only [childrenOf, childXs, List.filter_cons, List.zip_cons_cons,
            List.filterMap_cons, hc, beq_self_eq_true, if_true]
          simp only [childrenOf, childXs] at hih
          simp [hih.2]
      · have hc' : (c.parent == some p) = false := by
          simp [hc]
        constructor
        · simp only [childrenOf, childXs, List.filter_cons, List.zip_cons_cons,
            List.filterMap_cons, hc', if_false]
          simpa [childrenOf, childXs] using hih.1
        · simp only [childrenOf, childXs, List.filter_cons, List.zip_cons_cons,
            List.filterMap_cons, hc', if_false]
          simpa [childrenOf, childXs] using hih.2

theorem xsOfLevel_length (P : VisParams) (next : List (Node α)) (nxs : List ℚ) :
    ∀ (lvl : List (Node α)) (p : Nat) (posx : ℚ),
      (xsOfLevel P next nxs lvl p posx).length = lvl.length := by
  intro lvl
  induction lvl with
  | nil => intro p posx; rfl
  | cons m rest ih => intro p posx; simp [xsOfLevel, ih]

theorem xsOfLevel_getD (P : VisParams) (next : List (Node α)) (nxs : List ℚ) :
    ∀ (lvl : List (Node α)) (p : Nat) (posx : ℚ) (k : Nat), k < lvl.length →
      (xsOfLevel P next nxs lvl p posx).getD k 0
        = (if (childXs next nxs (p + k)).length = 0 then
            (if k = 0 then posx
              else (xsOfLevel P next nxs lvl p posx).getD (k - 1) 0)
              + (P.node_size.x + P.separation.x)
          else (childXs next nxs (p + k)).sum
            / ((childXs next nxs (p + k)).length : ℚ)) := by
  intro lvl
  induction lvl with
  | nil => intro p posx k hk; simp at hk
  | cons m rest ih =>
    intro p posx k hk
    cases k with
    | zero =>
      simp [xsOfLevel]
    | succ k' =>
      have hk' : k' < rest.length := by simpa using hk
      simp only [xsOfLevel, List.getD_cons_succ]
      rw [ih (p + 1) _ k' hk']
      have hpk : p + 1 + k' = p + (k' + 1) := by omega
      rw [hpk]
      rcases Nat.eq_zero_or_pos k' with hk0 | hk0
      · subst hk0
        simp
      · have hkne : ¬ (k' + 1 = 0) := by omega
        have hkne' : ¬ (k' = 0) := by omega
        simp only [hkne, hkne', if_false, Nat.succ_sub_one]
        cases k' with
        | zero => omega
        | succ k'' => simp [List.getD_cons_succ]

/-! Facts about the names of a tree. -/

theorem allNames_cons (a : List (Node α)) (rest : List (List (Node α))) :
    allNames (a :: rest) = a.map (fun n => n.name) ++ allNames rest := rfl

theorem allNames_append :
    ∀ (xs ys : List (List (Node α))),
      allNames (xs ++ ys) = allNames xs ++ allNames ys := by
  intro xs
  induction xs with
  | nil => intro ys; rfl
  | cons a rest ih =>
    intro ys
    simp [allNames_cons, ih, List.append_assoc]

theorem name_mem_allNames :
    ∀ (t : List (List (Node α))) (l k : Nat) (n : Node α),
      (t.getD l []).get? k = some n → n.name ∈ allNames t := by
  intro t
  induction t with
  | nil =>
    intro l k n h
    cases l <;> simp at h
  | cons a rest ih =>
    intro l k n h
    rw [allNames_cons]
    cases l with
    | zero =>
      simp only [List.getD_cons_zero] at h
      exact List.mem_append.mpr (Or.inl (List.mem_map_of_mem _ (List.get?_mem h)))
    | succ l' =>
      exact List.mem_append.mpr (Or.inr (ih l' k n (by simpa using h)))

/-! Facts about `xsAll`. -/

theorem xsAll_cons (P : VisParams) (a b : List (Node α))
    (rest : List (List (Node α))) :
    xsAll P (a :: b :: rest)
      = xsOfLevel P b ((xsAll P (b :: rest)).getD 0 []) a 0 P.margin.x
          :: xsAll P (b :: rest) := rfl

theorem xsAll_getD_length (P : VisParams) :
    ∀ (t : List (List (Node α))) (l : Nat),
      ((xsAll P t).getD l []).length = (t.getD l []).length := by
  intro t
  induction t with
  | nil => intro l; cases l <;> rfl
  | cons a rest ih =>
    intro l
    cases rest with
    | nil =>
      cases l with
      | zero => simp [xsAll, leafXs_length]
      | succ l' => cases l' <;> simp [xsAll]
    | cons b rest' =>
      cases l with
      | zero => simp [xsAll_cons, xsOfLevel_length]
      | succ l' => simpa [xsAll_cons] using ih l'

/-! The layout of one internal level. -/

theorem layoutNodes_spec (P : VisParams) (next : List (Node α)) (nxs : List ℚ)
    (hlen : nxs.length = next.length) :
    ∀ (lvl : List (Node α)) (p : Nat) (posx posy : ℚ) (d : List (Nat × Vec2)),
      (∀ k c, next.get? k = some c →
        ∃ v, dictGet d c.name = some v ∧ v.x = nxs.getD k 0) →
      (∀ m ∈ lvl, ∀ c ∈ next, m.name ≠ c.name) →
      ∃ d', layoutNodes P next lvl p posx posy d = some d'
        ∧ (∀ k, k ∉ lvl.map (fun n => n.name) → dictGet d' k = dictGet d k)
        ∧ ((lvl.map (fun n => n.name)).Nodup →
            ∀ k n, lvl.get? k = some n →
              dictGet d' n.name
                = some ⟨(xsOfLevel P next nxs lvl p posx).getD k 0, posy⟩)
        ∧ ((dictKeys d).Nodup → (dictKeys d').Nodup) := by
  intro lvl
  induction lvl with
  | nil =>
    intro p posx posy d _ _
    refine ⟨d, rfl, fun _ _ => rfl, ?_, fun h => h⟩
    intro _ k n hk
    cases hk
  | cons n rest ih =>
    intro p posx posy d hlook hdisj
    have hsum := sumChildX_eq d next nxs hlen hlook p
    have hdisj_head : ∀ c ∈ next, n.name ≠ c.name := fun c hc =>
      hdisj n (List.mem_cons_self _ _) c hc
    have hdisj_rest : ∀ m ∈ rest, ∀ c ∈ next, m.name ≠ c.name := fun m hm c hc =>
      hdisj m (List.mem_cons_of_mem _ hm) c hc
    by_cases hch : (childrenOf next p).length = 0
    · have hcxs : (childXs next nxs p).length = 0 := by rw [← hsum.2]; exact hch
      have hlook' : ∀ k c, next.get? k = some c →
          ∃ v, dictGet (dictSet d n.name
              ⟨posx + (P.node_size.x + P.separation.x), posy⟩) c.name = some v
            ∧ v.x = nxs.getD k 0 := by
        intro k c hk
        rcases hlook k c hk with ⟨v, hv, hvx⟩
        refine ⟨v, ?_, hvx⟩
        rw [dictGet_dictSet_ne _ _ _ _ (Ne.symm (hdisj_head c (List.get?_mem hk)))]
        exact hv
      rcases ih (p + 1) (posx + (P.node_size.x + P.separation.x)) posy _ hlook'
          hdisj_rest with ⟨d', heq, hpres, hchar, hnod⟩
      refine ⟨d', ?_, ?_, ?_, ?_⟩
      · simp only [layoutNodes, hch, if_true]
        exact heq
      · intro k hk
        simp only [List.map_cons, List.mem_cons, not_or] at hk
        rw [hpres k hk.2, dictGet_dictSet_ne _ _ _ _ hk.1]
      · intro hnd k m hk
        simp only [List.map_cons, List.nodup_cons] at hnd
        have hxs0 : (xsOfLevel P next nxs (n :: rest) p posx)
            = (posx + (P.node_size.x + P.separation.x))
                :: xsOfLevel P next nxs rest (p + 1)
                  (posx + (P.node_size.x + P.separation.x)) := by
          simp [xsOfLevel, hcxs]
        cases k with
        | zero =>
          simp only [List.get?_cons_zero, Option.some.injEq] at hk
          subst hk
          rw [hpres n.name hnd.1, dictGet_dictSet_self, hxs0, List.getD_cons_zero]
        | succ k' =>
          simp only [List.get?_cons_succ] at hk
          rw [hxs0, List.getD_cons_succ]
          exact hchar hnd.2 k' m hk
      · intro h
        exact hnod (dictKeys_dictSet_nodup _ _ _ h)
    · have hcxs : ¬ ((childXs next nxs p).length = 0) := by rw [← hsum.2]; exact hch
      have hpxval : (childXs next nxs p).sum / (((childXs next nxs p).length : Nat) : ℚ)
          = (childXs next nxs p).sum / (((childrenOf next p).length : Nat) : ℚ) := by
        rw [hsum.2]
      have hlook' : ∀ k c, next.get? k = some c →
          ∃ v, dictGet (dictSet d n.name
              ⟨(childXs next nxs p).sum / (((childrenOf next p).length : Nat) : ℚ),
                posy⟩) c.name = some v
            ∧ v.x = nxs.getD k 0 := by
        intro k c hk
        rcases hlook k c hk with ⟨v, hv, hvx⟩
        refine ⟨v, ?_, hvx⟩
        rw [dictGet_dictSet_ne _ _ _ _ (Ne.symm (hdisj_head c (List.get?_mem hk)))]
        exact hv
      rcases ih (p + 1)
          ((childXs next nxs p).sum / (((childrenOf next p).length : Nat) : ℚ)) posy _
          hlook' hdisj_rest with ⟨d', heq, hpres, hchar, hnod⟩
      refine ⟨d', ?_, ?_, ?_, ?_⟩
      · simp only [layoutNodes, hch, if_false, hsum.1]
        exact heq
      · intro k hk
        simp only [List.map_cons, List.mem_cons, not_or] at hk
        rw [hpres k hk.2, dictGet_dictSet_ne _ _ _ _ hk.1]
      · intro hnd k m hk
        simp only [List.map_cons, List.nodup_cons] at hnd
        have hxs0 : (xsOfLevel P next nxs (n :: rest) p posx)
            = ((childXs next nxs p).sum / (((childrenOf next p).length : Nat) : ℚ))
                :: xsOfLevel P next nxs rest (p + 1)
                  ((childXs next nxs p).sum / (((childrenOf next p).length : Nat) : ℚ)) := by
          simp [xsOfLevel, hcxs, hpxval]
        cases k with
        | zero =>
          simp only [List.get?_cons_zero, Option.some.injEq] at hk
          subst hk
          rw [hpres n.name hnd.1, dictGet_dictSet_self, hxs0, List.getD_cons_zero]
        | succ k' =>
          simp only [List.get?_cons_succ] at hk
          rw [hxs0, List.getD_cons_succ]
          exact hchar hnd.2 k' m hk
      · intro h
        exact hnod (dictKeys_dictSet_nodup _ _ _ h)

/-! The bottom-up walk over the levels. -/

theorem pairs_cons (a b : List (Node α)) (rest : List (List (Node α))) :
    ((a :: b :: rest).dropLast.zip (a :: b :: rest).tail).reverse
      = (((b :: rest).dropLast.zip (b :: rest).tail).reverse) ++ [(a, b)] := by
  rw [show (a :: b :: rest).dropLast = a :: (b :: rest).dropLast from rfl,
    show (a :: b :: rest).tail = b :: rest from rfl,
    show (b :: rest).tail = rest from rfl,
    List.zip_cons_cons, List.reverse_cons]

theorem pairs_length (t : List (List (Node α))) :
    ((t.dropLast.zip t.tail).reverse).length = t.length - 1 := by
  rw [List.length_reverse, List.length_zip, List.length_dropLast, List.length_tail]
  simp [Nat.min_self]

theorem layoutLevels_append_some (P : VisParams) :
    ∀ (xs ys : List (List (Node α) × List (Node α))) (j : ℚ)
      (d d₁ : List (Nat × Vec2)),
      layoutLevels P xs j d = some d₁ →
      layoutLevels P (xs ++ ys) j d = layoutLevels P ys (j - (xs.length : ℚ)) d₁ := by
  intro xs
  induction xs with
  | nil =>
    intro ys j d d₁ h
    simp only [layoutLevels, Option.some.injEq] at h
    subst h
    simp
  | cons lp rest ih =>
    intro ys j d d₁ h
    simp only [layoutLevels, List.cons_append, List.append_eq] at h ⊢
    cases hln : layoutNodes P lp.2 lp.1 0 P.margin.x
        (P.margin.y + (P.node_size.y + P.separation.y) * j) d with
    | none =>
      rw [hln] at h
      simp at h
    | some d2 =>
      simp only [hln] at h ⊢
      rw [ih ys (j - 1) d2 d₁ h]
      have hj : (j - 1) - (rest.length : ℚ) = j - (((lp :: rest).length : Nat) : ℚ) := by
        push_cast [List.length_cons]
        ring
      rw [hj]

theorem layoutLevels_master (P : VisParams) :
    ∀ (t : List (List (Node α))), t ≠ [] → ∀ (jtop : ℚ) (d : List (Nat × Vec2)),
      (allNames t).Nodup →
      (∀ k n, ((t.getLast?).getD []).get? k = some n →
        ∃ v, dictGet d n.name = some v
          ∧ v.x = (leafXs P ((t.getLast?).getD [])).getD k 0) →
      ∃ d', layoutLevels P ((t.dropLast.zip t.tail).reverse) jtop d = some d'
        ∧ (∀ k, k ∉ allNames t.dropLast → dictGet d' k = dictGet d k)
        ∧ (∀ l k n, l + 2 ≤ t.length → (t.getD l []).get? k = some n →
            dictGet d' n.name
              = some ⟨((xsAll P t).getD l []).getD k 0,
                  P.margin.y + (P.node_size.y + P.separation.y)
                    * (jtop - (((t.length - (l + 2) : Nat)) : ℚ))⟩)
        ∧ ((dictKeys d).Nodup → (dictKeys d').Nodup) := by
  intro t
  induction t with
  | nil => intro h; exact absurd rfl h
  | cons a rest ih =>
    intro _ jtop d hnd hleaf
    cases rest with
    | nil =>
      refine ⟨d, rfl, fun _ _ => rfl, ?_, fun h => h⟩
      intro l k n hl _
      simp at hl
    | cons b rest' =>
      have hnd' : (allNames (b :: rest')).Nodup :=
        (allNames_cons a (b :: rest') ▸ hnd).of_append_right
      have hdisjoint : ∀ x, x ∈ a.map (fun n => n.name) →
          x ∈ allNames (b :: rest') → False := by
        intro x hx hx'
        exact (List.disjoint_of_nodup_append (allNames_cons a (b :: rest') ▸ hnd)) hx hx'
      have hleaf' : ∀ k n, (((b :: rest').getLast?).getD []).get? k = some n →
          ∃ v, dictGet d n.name = some v
            ∧ v.x = (leafXs P (((b :: rest').getLast?).getD [])).getD k 0 := by
        intro k n hk
        have := hleaf k n (by rwa [List.getLast?_cons_cons])
        rwa [List.getLast?_cons_cons] at this
      rcases ih (by simp) jtop d hnd' hleaf' with ⟨d₁, heq₁, hpres₁, hchar₁, hnod₁⟩
      have hlookB : ∀ k c, b.get? k = some c →
          ∃ v, dictGet d₁ c.name = some v
            ∧ v.x = ((xsAll P (b :: rest')).getD 0 []).getD k 0 := by
        intro k c hk
        cases rest' with
        | nil =>
          rcases hleaf' k c (by simpa using hk) with ⟨v, hv, hvx⟩
          refine ⟨v, ?_, ?_⟩
          · rw [hpres₁ c.name (by simp [allNames])]
            exact hv
          · simpa [xsAll] using hvx
        | cons b2 rest'' =>
          have := hchar₁ 0 k c (by simp) (by simpa using hk)
          exact ⟨_, this, rfl⟩
      have hlenB : ((xsAll P (b :: rest')).getD 0 []).length = b.length := by
        simpa using xsAll_getD_length P (b :: rest') 0
      have hdisjAB : ∀ m ∈ a, ∀ c ∈ b, m.name ≠ c.name := by
        intro m hm c hc he
        refine hdisjoint m.name (List.mem_map_of_mem _ hm) ?_
        rw [allNames_cons]
        exact List.mem_append.mpr (Or.inl (he ▸ List.mem_map_of_mem _ hc))
      rcases layoutNodes_spec P b ((xsAll P (b :: rest')).getD 0 []) hlenB a 0
          P.margin.x
          (P.margin.y + (P.node_size.y + P.separation.y)
            * (jtop - ((((b :: rest').dropLast.zip (b :: rest').tail).reverse).length : ℚ)))
          d₁ hlookB hdisjAB with ⟨d₂, heq₂, hpres₂, hchar₂, hnod₂⟩
      have hfinal : layoutLevels P
          (((a :: b :: rest').dropLast.zip (a :: b :: rest').tail).reverse) jtop d
          = some d₂ := by
        rw [pairs_cons, layoutLevels_append_some P _ _ jtop d d₁ heq₁]
        simp only [layoutLevels]
        rw [heq₂]
      have hanodup : (a.map (fun n => n.name)).Nodup := by
        rw [allNames_cons] at hnd
        exact hnd.of_append_left
      refine ⟨d₂, hfinal, ?_, ?_, fun h => hnod₂ (hnod₁ h)⟩
      · intro k hk
        rw [show (a :: b :: rest').dropLast = a :: (b :: rest').dropLast from rfl,
          allNames_cons, List.mem_append] at hk
        push_neg at hk
        rw [hpres₂ k hk.1, hpres₁ k hk.2]
      · intro l k n hl hn
        cases l with
        | zero =>
          have h0 := hchar₂ hanodup k n (by simpa using hn)
          rw [h0]
          have hlen0 : ((((b :: rest').dropLast.zip (b :: rest').tail).reverse).length : Nat)
              = (a :: b :: rest').length - (0 + 2) := by
            rw [pairs_length]
            simp
          rw [hlen0]
          rfl
        | succ l' =>
          have hl' : l' + 2 ≤ (b :: rest').length := by
            simpa using hl
          have hn' : ((b :: rest').getD l' []).get? k = some n := by
            simpa using hn
          have hIH := hchar₁ l' k n hl' hn'
          have hname : n.name ∈ allNames (b :: rest') :=
            name_mem_allNames (b :: rest') l' k n hn'
          have hyy : (b :: rest').length - (l' + 2)
              = (a :: b :: rest').length - (l' + 1 + 2) := by
            simp only [List.length_cons]
            omega
          rw [hpres₂ n.name (fun hmem => hdisjoint n.name hmem hname), hIH, hyy,
            show (xsAll P (a :: b :: rest')).getD (l' + 1) []
                = (xsAll P (b :: rest')).getD l' [] from by
              rw [xsAll_cons, List.getD_cons_succ]]

/-! Assembly: the whole of `analyze_tree` on a non-empty tree. -/

theorem getLast_getD_eq (t : List (List (Node α))) (hne : t ≠ []) :
    (t.getLast?).getD [] = t.getD (t.length - 1) [] := by
  induction t with
  | nil => exact absurd rfl hne
  | cons a rest ih =>
    cases rest with
    | nil => rfl
    | cons b rest' =>
      rw [List.getLast?_cons_cons]
      have := ih (by simp)
      simp only [List.length_cons] at this ⊢
      simpa using this

theorem xsAll_last (P : VisParams) :
    ∀ (t : List (List (Node α))), t ≠ [] →
      (xsAll P t).getD (t.length - 1) [] = leafXs P ((t.getLast?).getD []) := by
  intro t
  induction t with
  | nil => intro h; exact absurd rfl h
  | cons a rest ih =>
    intro _
    cases rest with
    | nil => rfl
    | cons b rest' =>
      rw [List.getLast?_cons_cons, xsAll_cons]
      have := ih (by simp)
      simp only [List.length_cons] at this ⊢
      simpa [List.getD_cons_succ] using this

theorem last_names_disjoint (t : List (List (Node α))) (hne : t ≠ [])
    (hnd : (allNames t).Nodup) (n : Node α) (hn : n ∈ (t.getLast?).getD []) :
    n.name ∉ allNames t.dropLast := by
  intro hmem
  have hsplit := List.dropLast_append_getLast hne
  have hnd' : (allNames (t.dropLast ++ [t.getLast hne])).Nodup := by
    rw [hsplit]; exact hnd
  rw [allNames_append] at hnd'
  refine List.disjoint_of_nodup_append hnd' hmem ?_
  have hlast : (t.getLast?).getD [] = t.getLast hne := by
    rw [List.getLast?_eq_getLast t hne]; rfl
  rw [hlast] at hn
  rw [allNames_cons]
  exact List.mem_append.mpr (Or.inl (List.mem_map_of_mem _ hn))

theorem last_names_nodup (t : List (List (Node α))) (hne : t ≠ [])
    (hnd : (allNames t).Nodup) :
    (((t.getLast?).getD []).map (fun n => n.name)).Nodup := by
  have hsplit := List.dropLast_append_getLast hne
  have hnd' : (allNames (t.dropLast ++ [t.getLast hne])).Nodup := by
    rw [hsplit]; exact hnd
  rw [allNames_append] at hnd'
  have h2 := hnd'.of_append_right
  rw [allNames_cons] at h2
  have h3 := h2.of_append_left
  have hlast : (t.getLast?).getD [] = t.getLast hne := by
    rw [List.getLast?_eq_getLast t hne]; rfl
  rw [hlast]
  exact h3

theorem analyze_positions (P : VisParams) (t : List (List (Node α)))
    (hne : t ≠ []) (hnd : (allNames t).Nodup) :
    ∃ d, analyze_tree P t = some (tree_dimensions P t, d)
      ∧ (dictKeys d).Nodup
      ∧ ∀ l k n, (t.getD l []).get? k = some n →
          dictGet d n.name
            = some ⟨((xsAll P t).getD l []).getD k 0,
                P.margin.y + (P.node_size.y + P.separation.y) * (l : ℚ)⟩ := by
  cases hlast : t.getLast? with
  | none => exact absurd (List.getLast?_eq_none_iff.mp hlast) hne
  | some leaves =>
    have hlv : (t.getLast?).getD [] = leaves := by rw [hlast]; rfl
    have hleafnodup : (leaves.map (fun n => n.name)).Nodup := by
      have := last_names_nodup t hne hnd
      rwa [hlv] at this
    have hd0char : ∀ k n, leaves.get? k = some n →
        dictGet (leafPositions P leaves ((t.length : ℚ) - 1)) n.name
          = some (P.margin + (P.node_size + P.separation)
              * (⟨(k : ℚ), ((t.length : ℚ) - 1)⟩ : Vec2)) := by
      intro k n hk
      have := leafPositionsAux_get P ((t.length : ℚ) - 1) leaves 0 [] k n hleafnodup hk
      simpa [leafPositions] using this
    have hd0leaf : ∀ k n, ((t.getLast?).getD []).get? k = some n →
        ∃ v, dictGet (leafPositions P leaves ((t.length : ℚ) - 1)) n.name = some v
          ∧ v.x = (leafXs P ((t.getLast?).getD [])).getD k 0 := by
      intro k n hk
      rw [hlv] at hk
      have hklt : k < leaves.length := by
        rcases List.get?_eq_some.mp hk with ⟨h, _⟩
        exact h
      refine ⟨_, hd0char k n hk, ?_⟩
      rw [hlv, leafXs_getD P leaves k hklt]
      simp
    have hd0nodup : (dictKeys (leafPositions P leaves ((t.length : ℚ) - 1))).Nodup := by
      have := leafPositionsAux_keys_nodup P ((t.length : ℚ) - 1) leaves 0 []
        (by simp [dictKeys])
      simpa [leafPositions] using this
    rcases layoutLevels_master P t hne ((t.length : ℚ) - 2)
        (leafPositions P leaves ((t.length : ℚ) - 1)) hnd hd0leaf
      with ⟨d', heq, hpres, hchar, hnod⟩
    refine ⟨d', ?_, hnod hd0nodup, ?_⟩
    · unfold analyze_tree
      rw [hlast]
      simp only
      rw [heq]
    · intro l k n hn
      have hlt : l < t.length := by
        by_contra hge
        push_neg at hge
        rw [List.getD_eq_default _ _ (by omega)] at hn
        cases hn
      by_cases hl2 : l + 2 ≤ t.length
      · have := hchar l k n hl2 hn
        rw [this]
        have hcast : (((t.length - (l + 2) : Nat)) : ℚ) = (t.length : ℚ) - (l + 2) := by
          push_cast [Nat.cast_sub hl2]
          ring
        rw [hcast]
        congr 2
        ring
      · have hleq : l = t.length - 1 := by omega
        have hnlast : n ∈ (t.getLast?).getD [] := by
          rw [getLast_getD_eq t hne, ← hleq]
          exact List.get?_mem hn
        have hlv2 : t.getD l [] = leaves := by
          rw [hleq, ← getLast_getD_eq t hne]
          exact hlv
        have hkget : leaves.get? k = some n := by
          rw [← hlv2]
          exact hn
        have hklt : k < leaves.length := by
          rcases List.get?_eq_some.mp hkget with ⟨h, _⟩
          exact h
        rw [hpres n.name (last_names_disjoint t hne hnd n hnlast), hd0char k n hkget]
        have hxval : ((xsAll P t).getD l []).getD k 0
            = P.margin.x + (P.node_size.x + P.separation.x) * (k : ℚ) := by
          rw [hleq, xsAll_last P t hne, hlv, leafXs_getD P leaves k hklt]
        have hyval : ((t.length : ℚ) - 1) = (l : ℚ) := by
          rw [hleq]
          push_cast [Nat.cast_sub (show 1 ≤ t.length from
            Nat.one_le_iff_ne_zero.mpr (fun h0 => hne (List.length_eq_zero.mp h0)))]
          ring
        rw [hxval, ← hyval]
        simp

theorem xsAll_getD_internal (P : VisParams) :
    ∀ (t : List (List (Node α))) (l : Nat), l + 1 < t.length →
      (xsAll P t).getD l []
        = xsOfLevel P (t.getD (l + 1) []) ((xsAll P t).getD (l + 1) [])
            (t.getD l []) 0 P.margin.x := by
  intro t
  induction t with
  | nil => intro l h; simp at h
  | cons a rest ih =>
    intro l h
    cases rest with
    | nil => simp at h
    | cons b rest' =>
      cases l with
      | zero => rfl
      | succ l' =>
        have h' : l' + 1 < (b :: rest').length := by simpa using h
        simpa [xsAll_cons, List.getD_cons_succ] using ih l' h'

theorem sample_analyze :
    analyze_tree sampleParams sampleTree = some (⟨120, 100⟩, sampleDict) := by
  norm_num [sampleParams, sampleTree, sampleDict, analyze_tree, load, loadLoop,
    processLevel, advanceCursor, advanceCursorAux, keyCounts, isFull,
    leafPositions, leafPositionsAux, layoutLevels, layoutNodes, childrenOf,
    sumChildX, dictSet, dictGet, tree_dimensions, nleaves, nlevels]

theorem sample_nodup : (allNames sampleTree).Nodup := by decide

/-- C4: after a successful `analyze_tree` on a tree with distinct node
names, every node with at least one child gets the horizontal coordinate
`(sum of its children's recorded x coordinates) / (number of children)`,
the arithmetic mean of the already-computed positions of its children in
the next level. -/
theorem internal_node_mean_x (P : VisParams) (t : List (List (Node α)))
    (dims : Vec2) (d : List (Nat × Vec2)) (l k : Nat) (n : Node α)
    (hnd : (allNames t).Nodup)
    (heq : analyze_tree P t = some (dims, d))
    (hn : (t.getD l []).get? k = some n)
    (hch : childrenOf (t.getD (l + 1) []) k ≠ []) :
    ∃ v s, dictGet d n.name = some v
      ∧ sumChildX d (childrenOf (t.getD (l + 1) []) k) = some s
      ∧ v.x = s / ((childrenOf (t.getD (l + 1) []) k).length : ℚ) := by
  have hne : t ≠ [] := by
    intro h
    subst h
    simp [analyze_tree] at heq
  rcases analyze_positions P t hne hnd with ⟨d0, heq0, _, hchar⟩
  obtain ⟨_, hd⟩ := Prod.mk.inj (Option.some.inj (heq0.symm.trans heq))
  subst hd
  have hklt : k < (t.getD l []).length := by
    rcases List.get?_eq_some.mp hn with ⟨h, _⟩
    exact h
  have hl1 : l + 1 < t.length := by
    by_contra hge
    push_neg at hge
    rw [List.getD_eq_default _ _ (by omega)] at hch
    simp [childrenOf] at hch
  have hlen : ((xsAll P t).getD (l + 1) []).length = (t.getD (l + 1) []).length :=
    xsAll_getD_length P t (l + 1)
  have hlook : ∀ j c, (t.getD (l + 1) []).get? j = some c →
      ∃ v, dictGet d0 c.name = some v
        ∧ v.x = ((xsAll P t).getD (l + 1) []).getD j 0 := by
    intro j c hj
    exact ⟨_, hchar (l + 1) j c hj, rfl⟩
  have hs := sumChildX_eq d0 (t.getD (l + 1) []) ((xsAll P t).getD (l + 1) [])
    hlen hlook k
  have hcxs : ¬ ((childXs (t.getD (l + 1) []) ((xsAll P t).getD (l + 1) []) k).length = 0) := by
    rw [← hs.2]
    intro h0
    exact hch (List.length_eq_zero.mp h0)
  refine ⟨_, (childXs (t.getD (l + 1) []) ((xsAll P t).getD (l + 1) []) k).sum,
    hchar l k n hn, hs.1, ?_⟩
  have hx := xsOfLevel_getD P (t.getD (l + 1) []) ((xsAll P t).getD (l + 1) [])
    (t.getD l []) 0 P.margin.x k hklt
  simp only [Nat.zero_add, hcxs, if_false] at hx
  rw [Vec2_mk_x, xsAll_getD_internal P t l hl1, hx, hs.2]

/-- Witness for `internal_node_mean_x`: in the sample tree the root's x
is the mean of its two leaves' x coordinates, `(10 + 70) / 2 = 40`. -/
theorem internal_node_mean_x_witness :
    ∃ v s, dictGet sampleDict (0 : Nat) = some v
      ∧ sumChildX sampleDict (childrenOf (sampleTree.getD 1 []) 0) = some s
      ∧ v.x = s / ((childrenOf (sampleTree.getD 1 []) 0).length : ℚ) := by
  have h := internal_node_mean_x sampleParams sampleTree ⟨120, 100⟩ sampleDict
    0 0 ⟨0, [1], none⟩ sample_nodup sample_analyze (by decide) (by decide)
  exact h

/-- C5: after a successful `analyze_tree` on a tree with distinct node
names, the `k`-th leaf sits at
`(margin + k * (nodeWidth + horizontalSeparation), margin + (levels − 1) *
(nodeHeight + verticalSeparation))`: all leaves share one baseline and,
whenever the node-width-plus-separation step is positive (as every real
configuration makes it), their x coordinates strictly increase left to
right. -/
theorem leaf_baseline_spacing (P : VisParams) (t : List (List (Node α)))
    (dims : Vec2) (d : List (Nat × Vec2))
    (hnd : (allNames t).Nodup)
    (heq : analyze_tree P t = some (dims, d)) :
    (∀ k n, ((t.getLast?).getD []).get? k = some n →
        dictGet d n.name
          = some ⟨P.margin.x + (P.node_size.x + P.separation.x) * (k : ℚ),
              P.margin.y + (P.node_size.y + P.separation.y) * ((t.length : ℚ) - 1)⟩)
    ∧ (0 < P.node_size.x + P.separation.x →
        ∀ k k' n n' v v', k < k' →
          ((t.getLast?).getD []).get? k = some n →
          ((t.getLast?).getD []).get? k' = some n' →
          dictGet d n.name = some v → dictGet d n'.name = some v' →
          v.x < v'.x) := by
  have hne : t ≠ [] := by
    intro h
    subst h
    simp [analyze_tree] at heq
  rcases analyze_positions P t hne hnd with ⟨d0, heq0, _, hchar⟩
  obtain ⟨_, hd⟩ := Prod.mk.inj (Option.some.inj (heq0.symm.trans heq))
  subst hd
  have hlen1 : 1 ≤ t.length :=
    Nat.one_le_iff_ne_zero.mpr (fun h0 => hne (List.length_eq_zero.mp h0))
  have hmainlookup : ∀ k n, ((t.getLast?).getD []).get? k = some n →
      dictGet d0 n.name
        = some ⟨P.margin.x + (P.node_size.x + P.separation.x) * (k : ℚ),
            P.margin.y + (P.node_size.y + P.separation.y) * ((t.length : ℚ) - 1)⟩ := by
    intro k n hk
    have hk' : (t.getD (t.length - 1) []).get? k = some n := by
      rwa [getLast_getD_eq t hne] at hk
    have hklt : k < ((t.getLast?).getD []).length := by
      rcases List.get?_eq_some.mp hk with ⟨h, _⟩
      exact h
    have hc := hchar (t.length - 1) k n hk'
    rw [hc]
    have hx : ((xsAll P t).getD (t.length - 1) []).getD k 0
        = P.margin.x + (P.node_size.x + P.separation.x) * (k : ℚ) := by
      rw [xsAll_last P t hne, leafXs_getD P _ k hklt]
    have hy : ((t.length - 1 : Nat) : ℚ) = (t.length : ℚ) - 1 := by
      push_cast [Nat.cast_sub hlen1]
      ring
    rw [hx, hy]
  refine ⟨hmainlookup, ?_⟩
  intro hstep k k' n n' v v' hkk hk hk' hv hv'
  have h1 := hmainlookup k n hk
  have h2 := hmainlookup k' n' hk'
  rw [hv] at h1
  rw [hv'] at h2
  have hv1 := Option.some.inj h1
  have hv2 := Option.some.inj h2
  rw [hv1, hv2]
  simp only [Vec2_mk_x]
  have : (k : ℚ) < (k' : ℚ) := by exact_mod_cast hkk
  have := mul_lt_mul_of_pos_left this hstep
  linarith

/-- Witness for `leaf_baseline_spacing`: the first sample leaf sits at
`(10, 60)` and its x coordinate lies strictly left of the second leaf's. -/
theorem leaf_baseline_spacing_witness :
    dictGet sampleDict 1 = some ⟨10, 60⟩
    ∧ (⟨10, 60⟩ : Vec2).x < (⟨70, 60⟩ : Vec2).x := by
  have H := leaf_baseline_spacing sampleParams sampleTree ⟨120, 100⟩ sampleDict
    sample_nodup sample_analyze
  constructor
  · have h := H.1 0 ⟨1, [2], some 0⟩ (by decide)
    norm_num [sampleParams, sampleTree, load, loadLoop, processLevel,
      advanceCursor, advanceCursorAux, keyCounts, isFull] at h
    exact h
  · exact H.2 (by norm_num [sampleParams]) 0 1 ⟨1, [2], some 0⟩ ⟨2, [3], some 0⟩
      ⟨10, 60⟩ ⟨70, 60⟩ (by omega) (by decide) (by decide) rfl rfl

/-- C7: on a tree with distinct node names, `analyze_tree` does not fail
on a childless node above the leaf level: the division by the child count
is guarded by the emptiness test, and such a node is placed one
node-width-plus-separation step to the right of the previous sibling's
recorded position, or at `margin.x` plus one step when it is the first
node of its level. -/
theorem childless_fallback_placement (P : VisParams) (t : List (List (Node α)))
    (hne : t ≠ []) (hnd : (allNames t).Nodup) :
    ∃ dims d, analyze_tree P t = some (dims, d)
      ∧ ∀ l k n, l + 2 ≤ t.length → (t.getD l []).get? k = some n →
          childrenOf (t.getD (l + 1) []) k = [] →
          ∃ v, dictGet d n.name = some v
            ∧ (k = 0 → v.x = P.margin.x + (P.node_size.x + P.separation.x))
            ∧ (∀ k0 m w, k = k0 + 1 → (t.getD l []).get? k0 = some m →
                dictGet d m.name = some w →
                v.x = w.x + (P.node_size.x + P.separation.x)) := by
  rcases analyze_positions P t hne hnd with ⟨d0, heq0, _, hchar⟩
  refine ⟨tree_dimensions P t, d0, heq0, ?_⟩
  intro l k n hl2 hn hch
  have hklt : k < (t.getD l []).length := by
    rcases List.get?_eq_some.mp hn with ⟨h, _⟩
    exact h
  have hl1 : l + 1 < t.length := by omega
  have hlen : ((xsAll P t).getD (l + 1) []).length = (t.getD (l + 1) []).length :=
    xsAll_getD_length P t (l + 1)
  have hlook : ∀ j c, (t.getD (l + 1) []).get? j = some c →
      ∃ v, dictGet d0 c.name = some v
        ∧ v.x = ((xsAll P t).getD (l + 1) []).getD j 0 := by
    intro j c hj
    exact ⟨_, hchar (l + 1) j c hj, rfl⟩
  have hs := sumChildX_eq d0 (t.getD (l + 1) []) ((xsAll P t).getD (l + 1) [])
    hlen hlook k
  have hcxs : (childXs (t.getD (l + 1) []) ((xsAll P t).getD (l + 1) []) k).length = 0 := by
    rw [← hs.2, hch]
    rfl
  have hx := xsOfLevel_getD P (t.getD (l + 1) []) ((xsAll P t).getD (l + 1) [])
    (t.getD l []) 0 P.margin.x k hklt
  simp only [Nat.zero_add, hcxs, if_pos rfl, eq_self_iff_true, if_true] at hx
  refine ⟨_, hchar l k n hn, ?_, ?_⟩
  · intro hk0
    subst hk0
    rw [Vec2_mk_x, xsAll_getD_internal P t l hl1, hx, if_pos rfl]
  · intro k0 m w hkk0 hm hw
    subst hkk0
    have hprev := hchar l k0 m hm
    rw [hw] at hprev
    have hweq := Option.some.inj hprev
    simp only [Vec2_mk_x, xsAll_getD_internal P t l hl1, hx]
    have hne0 : ¬ (k0 + 1 = 0) := by omega
    simp only [hne0, if_false, Nat.add_sub_cancel]
    rw [hweq, Vec2_mk_x, xsAll_getD_internal P t l hl1]

/-- Witness for `childless_fallback_placement`: a hand-built two-level
tree whose single second-level node is parentless, so the root is
childless above the leaf level; the layout still succeeds. -/
theorem childless_fallback_placement_witness :
    ∃ dims d, analyze_tree sampleParams
        ([[⟨0, [5], none⟩], [⟨1, [6], none⟩]] : List (List (Node Nat)))
        = some (dims, d)
      ∧ ∀ l k n, l + 2 ≤ 2 →
          (([[⟨0, [5], none⟩], [⟨1, [6], none⟩]] :
              List (List (Node Nat))).getD l []).get? k = some n →
          childrenOf (([[⟨0, [5], none⟩], [⟨1, [6], none⟩]] :
              List (List (Node Nat))).getD (l + 1) []) k = [] →
          ∃ v, dictGet d n.name = some v
            ∧ (k = 0 → v.x = sampleParams.margin.x
                + (sampleParams.node_size.x + sampleParams.separation.x))
            ∧ (∀ k0 m w, k = k0 + 1 →
                (([[⟨0, [5], none⟩], [⟨1, [6], none⟩]] :
                    List (List (Node Nat))).getD l []).get? k0 = some m →
                dictGet d m.name = some w →
                v.x = w.x + (sampleParams.node_size.x + sampleParams.separation.x)) :=
  childless_fallback_placement sampleParams
    ([[⟨0, [5], none⟩], [⟨1, [6], none⟩]] : List (List (Node Nat)))
    (by decide) (by decide)

/-- C9: on every non-empty tree whose node names are pairwise distinct,
`analyze_tree` terminates successfully and its position mapping holds
exactly one entry for every node of the tree; in particular there is no
partially filled mapping. -/
theorem positions_total_unique (P : VisParams) (t : List (List (Node α)))
    (hne : t ≠ []) (hnd : (allNames t).Nodup) :
    ∃ dims d, analyze_tree P t = some (dims, d)
      ∧ ∀ lvl ∈ t, ∀ n ∈ lvl, (dictKeys d).count n.name = 1 := by
  rcases analyze_positions P t hne hnd with ⟨d0, heq0, hnodup, hchar⟩
  refine ⟨tree_dimensions P t, d0, heq0, ?_⟩
  intro lvl hlvl n hn
  rcases List.get?_of_mem hlvl with ⟨l, hl⟩
  rcases List.get?_of_mem hn with ⟨k, hk⟩
  have hlvl' : t.getD l [] = lvl := getD_of_get? t l lvl [] hl
  have hmem : n.name ∈ dictKeys d0 :=
    mem_dictKeys_of_dictGet d0 n.name _ (hchar l k n (by rw [hlvl']; exact hk))
  exact List.count_eq_one_of_mem hnodup hmem

/-- Witness for `positions_total_unique` on the sample tree. -/
theorem positions_total_unique_witness :
    ∃ dims d, analyze_tree sampleParams sampleTree = some (dims, d)
      ∧ ∀ lvl ∈ sampleTree, ∀ n ∈ lvl, (dictKeys d).count n.name = 1 :=
  positions_total_unique sampleParams sampleTree (by decide) sample_nodup

end BPTreeVis
